import Mathlib

/-!
Verification of the conjugation extraction and normalization pipeline of the
verbe-conjugaison-academie-francaise crawler.

The development shallowly embeds the two core modules:

* `conjugation_parser.py` — the voice locator / auxiliary resolver
  (`__guess_auxiliary`), the standard person-form composer
  (`__parse_tense_table`) and the imperative composer
  (`__parse_imperative_table`);
* `data_transformer.py` — the key/schema normalizer (`transform_verb_data`,
  `transform_tense`), the participle transformer (`transform_participle`) and
  the reform-variant synthesizer (`has_infinitive_variant`,
  `get_infinitive_variant`, `create_reformed_verb_entry`).

Python strings are modelled as `List Char`; Python dictionaries as ordered
association lists (insertion-ordered, update-in-place on existing keys, which
is exactly `alSet` below); heterogeneous Python values (str / bool / None /
dict) as the inductive `PyVal`; and Python exceptions (AttributeError,
TypeError, KeyError, IndexError) as `Except Unit`.  BeautifulSoup tag lookups
that may return `None` are modelled as `Option` fields of small record types
holding exactly the data each source function reads.
-/

namespace VerbConj

/-- Python strings, modelled as lists of characters. -/
abbrev Str := List Char

/-- Shorthand to write a modelled Python string from a Lean string literal. -/
def S (s : String) : Str := s.toList

/-- The characters stripped by Python `str.strip()` (ASCII whitespace). -/
def isPySpace (c : Char) : Bool :=
  c = ' ' || c = '\t' || c = '\n' || c = '\r' || c = '\x0b' || c = '\x0c'

/-- Python `str.lstrip()`. -/
def stripLeft (s : Str) : Str := s.dropWhile isPySpace

/-- Python `str.rstrip()`. -/
def stripRight (s : Str) : Str := (s.reverse.dropWhile isPySpace).reverse

/-- Python `str.strip()`. -/
def strip (s : Str) : Str := stripRight (stripLeft s)

/-- Python `str.lower()`, restricted to ASCII plus the accented capitals that
can occur in the auxiliary-form tables of this program. -/
def pyLowerChar (c : Char) : Char :=
  if c = 'Ê' then 'ê'
  else if c = 'É' then 'é'
  else if c = 'Î' then 'î'
  else if c = 'Û' then 'û'
  else c.toLower

/-- Python `str.lower()` over a whole string. -/
def pyLower (s : Str) : Str := s.map pyLowerChar

/-- `c in s` for a single character `c` (Python substring test specialised to
one-character needles). -/
def containsChar (a : Char) (s : Str) : Bool := s.any (fun c => c = a)

/-- Python substring containment `needle in hay`. -/
def isSubstr (needle hay : Str) : Bool := decide (needle <:+: hay)

/-- Python `str.replace(a, b)` where both arguments are single characters. -/
def replaceChar (a b : Char) (s : Str) : Str :=
  s.map (fun c => if c = a then b else c)

/-- Python `str.replace(a, "")` for a single character `a` (used for
`.replace(" ", "")`). -/
def removeChar (a : Char) (s : Str) : Str := s.filter (fun c => ¬ c = a)

/-- Python `str.split(sep)` for a one-character separator: splits at every
occurrence, keeping empty fields, and always returns at least one field. -/
def splitOnChar (sep : Char) : Str → List Str
  | [] => [[]]
  | c :: rest =>
    let r := splitOnChar sep rest
    if c = sep then
      [] :: r
    else
      match r with
      | [] => [[c]]
      | h :: t => (c :: h) :: t

/-- The first field of `str.split(sep)` — i.e. Python `s.split(sep)[0]`. -/
def firstField (sep : Char) (s : Str) : Str := (splitOnChar sep s).headD []

/-- Splitting at every whitespace character, keeping empty fields (auxiliary
step for `str.split()`). -/
def splitAtSpaces : Str → List Str
  | [] => [[]]
  | c :: rest =>
    let r := splitAtSpaces rest
    if isPySpace c then
      [] :: r
    else
      match r with
      | [] => [[c]]
      | h :: t => (c :: h) :: t

/-- Python `str.split()` (no argument): split on whitespace runs, dropping
empty fields. -/
def splitWs (s : Str) : List Str := (splitAtSpaces s).filter (fun w => ¬ w.isEmpty)

/-- Python `sep.join(parts)`. -/
def joinWith (sep : Str) (parts : List Str) : Str := List.intercalate sep parts

/-- Heterogeneous Python values as they occur in the pipeline's dictionaries:
strings, booleans, `None`, and nested dictionaries (insertion-ordered
association lists). -/
inductive PyVal where
  | vstr : Str → PyVal
  | vbool : Bool → PyVal
  | vnone : PyVal
  | vdict : List (Str × PyVal) → PyVal

/-- A Python dictionary with string keys. -/
abbrev Dict := List (Str × PyVal)

/-- Python `d.get(k)` / `d[k]`-style lookup on an association list: value of
the first entry with the given key. -/
def alGet {α : Type} : List (Str × α) → Str → Option α
  | [], _ => none
  | (k, v) :: rest, key => if k = key then some v else alGet rest key

/-- Python `d[k] = v` on an association list: update the first entry with the
given key in place, or append a new entry. -/
def alSet {α : Type} : List (Str × α) → Str → α → List (Str × α)
  | [], key, val => [(key, val)]
  | (k, v) :: rest, key, val =>
    if k = key then (k, val) :: rest else (k, v) :: alSet rest key val

/-- Python `k in d` for a dictionary. -/
def alMem {α : Type} (d : List (Str × α)) (key : Str) : Bool := (alGet d key).isSome

/-! ### data_transformer.py — 1990 reform detection and synthesis -/

/-- The character `î`. -/
def icirc : Char := Char.ofNat 0xEE

/-- The character `û`. -/
def ucirc : Char := Char.ofNat 0xFB

/-- `has_infinitive_variant(verb_name)`: the infinitive has a 1990 reform
variant iff it contains `î` or `û`. -/
def has_infinitive_variant (verbName : Str) : Bool :=
  containsChar icirc verbName || containsChar ucirc verbName

/-- `get_infinitive_variant(verb_name)`: the reformed spelling
(`î`→`i` then `û`→`u`, each replacement over the whole string), or `None`
when the infinitive has no variant. -/
def get_infinitive_variant (verbName : Str) : Option Str :=
  if has_infinitive_variant verbName then
    some (replaceChar ucirc 'u' (replaceChar icirc 'i' verbName))
  else
    none

/-! ### conjugation_parser.py — auxiliary resolver (`__guess_auxiliary`)

A "tense" div selected by `voix_active_tag.select('div#active_ind div.tense')`
is modelled by the data `__guess_auxiliary` reads from it: whether it has an
`h4` child whose string is exactly `"Passé composé"`, and its first `table`
descendant (if any), itself modelled by the text of its first
`td.conj_auxil` descendant (if any). -/

/-- The `table` element inside a tense div, as read by `__guess_auxiliary`:
the text of its first `td` with class `conj_auxil`, or `none` when the table
has no such cell (`find` returns `None`). -/
structure TableTag where
  auxilCell : Option Str

/-- One element of `voix_active_tag.select('div#active_ind div.tense')`. -/
structure TenseDiv where
  pcHeader : Bool
  table : Option TableTag

/-- The six conjugated present-tense forms of *avoir*. -/
def avoirForms : List Str := [S "ai", S "as", S "a", S "avons", S "avez", S "ont"]

/-- The six conjugated present-tense forms of *être*. -/
def etreForms : List Str := [S "suis", S "es", S "est", S "sommes", S "êtes", S "sont"]

/-- The loop body of `__guess_auxiliary`: scan the tense divs for the one with
the "Passé composé" header; read `table.find("td", class_="conj_auxil").text`
(each missing lookup makes the attribute access raise, modelled as
`Except.error`), classify the trimmed lower-cased cell text, and fall through
to the next div when it is neither an *avoir* nor an *être* form. -/
def guessAuxiliaryLoop : List TenseDiv → Except Unit Nat
  | [] => .ok 0
  | d :: rest =>
    if d.pcHeader then
      match d.table with
      | none => .error ()
      | some t =>
        match t.auxilCell with
        | none => .error ()
        | some cell =>
          let firstRowAuxiliary := pyLower (strip cell)
          if firstRowAuxiliary ∈ avoirForms then .ok 1
          else if firstRowAuxiliary ∈ etreForms then .ok 2
          else guessAuxiliaryLoop rest
    else guessAuxiliaryLoop rest

/-- `__guess_auxiliary(voix_active_tag)`: `0` when the tag is `None` or no
Passé composé table classifies; `1` for *avoir*; `2` for *être*.  The
argument is the selected list of tense divs (`none` models a `None` tag). -/
def guessAuxiliary : Option (List TenseDiv) → Except Unit Nat
  | none => .ok 0
  | some divs => guessAuxiliaryLoop divs

/-! ### conjugation_parser.py — standard person-form composer -/

/-- The right single quotation mark `’` normalised to `'` by the composer. -/
def rsquo : Char := Char.ofNat 0x2019

/-- The apostrophe character `'`. -/
def apos : Char := Char.ofNat 0x27

/-- One `tr.conj_line` row as read by `__parse_tense_table`: the text of its
`span.conj_pp` (pronoun cell), `td.conj_refl-pron` (reflexive-pronoun cell)
and `td.conj_auxil` (auxiliary cell) when present, the list of stripped
strings of its `td.conj_verb` (absent when the `td` itself is missing), and
the text of its `span.forme_rectif` (1990 alternate spelling) when present. -/
structure ConjRow where
  conjPp : Option Str
  reflPron : Option Str
  auxil : Option Str
  conjVerbStrings : Option (List Str)
  formeRectif : Option Str

/-- `__map_pronoun_to_key` of `__parse_tense_table`: substring-containment
tests on the trimmed lower-cased pronoun text, in source order. -/
def mapPronounToKey (pronoun : Str) : Option Str :=
  let p := pyLower (strip pronoun)
  if isSubstr (S "j") p then some (S "je")
  else if isSubstr (S "t") p then some (S "tu")
  else if isSubstr (S "ils") p || isSubstr (S "elles") p then some (S "ils")
  else if isSubstr (S "il") p || isSubstr (S "elle") p || isSubstr (S "on") p then some (S "il")
  else if isSubstr (S "nous") p then some (S "nous")
  else if isSubstr (S "vous") p then some (S "vous")
  else none

/-- The body of `__parse_tense_table`'s row loop for one row: `ok none` when
the row is skipped (missing pronoun cell or unrecognized pronoun), `error`
when the main-verb cell is missing or has no text (AttributeError /
IndexError), and otherwise the internal person key together with the composed
cell value `reflexive + auxiliary + mainForm[,reflexive + auxiliary + alt]`. -/
def composeStdRow (row : ConjRow) : Except Unit (Option (Str × Str)) :=
  match row.conjPp with
  | none => .ok none
  | some pp =>
    match mapPronounToKey pp with
    | none => .ok none
    | some pronounKey =>
      let reflexive0 :=
        match row.reflPron with
        | some t => replaceChar rsquo apos (strip t)
        | none => []
      let reflexivePronoun :=
        if ¬ reflexive0.isEmpty && ¬ containsChar apos reflexive0 then
          reflexive0 ++ [' ']
        else reflexive0
      let auxiliaryVerb :=
        match row.auxil with
        | some t => t ++ [' ']
        | none => []
      match row.conjVerbStrings with
      | none => .error ()
      | some [] => .error ()
      | some (firstText :: _) =>
        let conjugatedVerb0 := if ¬ firstText.isEmpty then strip firstText else []
        let conjugatedVerb := removeChar ' ' (firstField ',' conjugatedVerb0)
        let rectified0 :=
          match row.formeRectif with
          | some t => strip t
          | none => []
        let rectifiedConjugatedVerb := removeChar ' ' (firstField ',' rectified0)
        let value := reflexivePronoun ++ auxiliaryVerb ++ conjugatedVerb
        let value :=
          if ¬ rectifiedConjugatedVerb.isEmpty then
            value ++ [','] ++ reflexivePronoun ++ auxiliaryVerb ++ rectifiedConjugatedVerb
          else value
        .ok (some (pronounKey, value))

/-- The initial result dictionary of `__parse_tense_table`: all six internal
person keys bound to `None`. -/
def tenseInit : List (Str × Option Str) :=
  [(S "je", none), (S "tu", none), (S "il", none),
   (S "nous", none), (S "vous", none), (S "ils", none)]

/-- The row loop of `__parse_tense_table`. -/
def parseTenseTableGo (acc : List (Str × Option Str)) :
    List ConjRow → Except Unit (List (Str × Option Str))
  | [] => .ok acc
  | row :: rest => do
    match ← composeStdRow row with
    | none => parseTenseTableGo acc rest
    | some (key, value) => parseTenseTableGo (alSet acc key (some value)) rest

/-- `__parse_tense_table(table_rows_tags)`. -/
def parseTenseTable (rows : List ConjRow) : Except Unit (List (Str × Option Str)) :=
  parseTenseTableGo tenseInit rows

/-! ### conjugation_parser.py — imperative composer -/

/-- One `tr.conj_line` row as read by `__parse_imperative_table`.  The
`conjPp` field (the row's pronoun label) is carried but never read by the
imperative composer: row identity is positional. -/
structure ImpRow where
  conjPp : Option Str
  reflPron : Option Str
  auxil : Option Str
  conjVerbStrings : Option (List Str)

/-- The per-row composition of `__parse_imperative_table`: when the
reflexive-pronoun cell exists but no auxiliary cell does, its stripped full
text is the fused auxiliary+pronoun unit; otherwise the auxiliary cell's text
(unstripped) is used when present.  The main form is the first stripped
string of the `td.conj_verb` cell, spaces removed, first comma field. -/
def composeImpRow (row : ImpRow) : Except Unit Str :=
  let auxiliaryVerb :=
    match row.reflPron, row.auxil with
    | some refl, none => strip refl ++ [' ']
    | _, some aux => aux ++ [' ']
    | none, none => []
  match row.conjVerbStrings with
  | none => .error ()
  | some [] => .error ()
  | some (firstText :: _) =>
    let conjugatedVerb0 := if ¬ firstText.isEmpty then strip firstText else []
    let conjugatedVerb := firstField ',' (removeChar ' ' conjugatedVerb0)
    .ok (auxiliaryVerb ++ conjugatedVerb)

/-- The initial result dictionary of `__parse_imperative_table`. -/
def impInit : List (Str × Option Str) :=
  [(S "tu", none), (S "nous", none), (S "vous", none)]

/-- The indexed row loop of `__parse_imperative_table`: row 0 is stored under
`tu`, row 1 under `nous`, and every later row under `vous`. -/
def parseImperativeTableGo (i : Nat) (acc : List (Str × Option Str)) :
    List ImpRow → Except Unit (List (Str × Option Str))
  | [] => .ok acc
  | row :: rest => do
    let value ← composeImpRow row
    let key := if i = 0 then S "tu" else if i = 1 then S "nous" else S "vous"
    parseImperativeTableGo (i + 1) (alSet acc key (some value)) rest

/-- `__parse_imperative_table(table_rows_tags)`. -/
def parseImperativeTable (rows : List ImpRow) : Except Unit (List (Str × Option Str)) :=
  parseImperativeTableGo 0 impInit rows

/-- Bridge from the parser's tense dictionaries (string-or-`None` values) to
the heterogeneous dictionaries consumed by `data_transformer.py` (the parsed
data is serialised to JSON and read back by the transformer; `None` becomes
`null` becomes `None`). -/
def tenseToPy (t : List (Str × Option Str)) : Dict :=
  t.map (fun kv => (kv.1, match kv.2 with
    | some s => PyVal.vstr s
    | none => PyVal.vnone))

/-! ### data_transformer.py — generic Python-value operations

The transformer iterates parsed dictionaries whose values may be strings,
booleans, `None` or nested dictionaries, so its embedding needs the dynamic
behaviour of a few Python operations, exceptions included. -/

/-- Python truthiness for the values occurring here (`if not passe`). -/
def truthy : PyVal → Bool
  | .vstr s => ¬ s.isEmpty
  | .vbool b => b
  | .vnone => false
  | .vdict d => ¬ d.isEmpty

/-- Python `needle in v`: key membership on a dict, substring containment on
a string, `TypeError` otherwise. -/
def pyIn (needle : Str) : PyVal → Except Unit Bool
  | .vdict d => .ok (alMem d needle)
  | .vstr s => .ok (isSubstr needle s)
  | _ => .error ()

/-- Python `v[key]`: dict lookup (KeyError when absent), `TypeError` on any
non-dict value. -/
def pyIndex (v : PyVal) (key : Str) : Except Unit PyVal :=
  match v with
  | .vdict d =>
    match alGet d key with
    | some x => .ok x
    | none => .error ()
  | _ => .error ()

/-- Using a value where a string method is called: `AttributeError` on
non-strings. -/
def asStr : PyVal → Except Unit Str
  | .vstr s => .ok s
  | _ => .error ()

/-- Using a value where `.items()` or `.get()` is called: `AttributeError` on
non-dicts. -/
def asDict : PyVal → Except Unit Dict
  | .vdict d => .ok d
  | _ => .error ()

/-! ### data_transformer.py — key/schema normalizer -/

/-- `PERSON_MAPPING`: internal person keys to canonical external keys. -/
def PERSON_MAPPING : List (Str × Str) :=
  [(S "je", S "1s"), (S "tu", S "2s"), (S "il", S "3sm"),
   (S "nous", S "1p"), (S "vous", S "2p"), (S "ils", S "3pm")]

/-- `conjugation.replace(',', ';')`. -/
def replaceCommaSemi (s : Str) : Str := replaceChar ',' ';' s

/-- The person loop of `transform_tense`: skip `None` values, map the person
key through `PERSON_MAPPING` (unknown keys pass through), rewrite commas to
semicolons; calling `.replace` on a non-`None` non-string raises. -/
def transformTenseGo (acc : Dict) : Dict → Except Unit Dict
  | [] => .ok acc
  | (personKey, conjugation) :: rest =>
    match conjugation with
    | .vnone => transformTenseGo acc rest
    | .vstr s =>
      let newKey := (alGet PERSON_MAPPING personKey).getD personKey
      transformTenseGo (alSet acc newKey (.vstr (replaceCommaSemi s))) rest
    | _ => .error ()

/-- One gender-duplication statement of `transform_tense`:
`if keySrc in result: result[keyDst] = result[keySrc]`. -/
def dupOne (keySrc keyDst : Str) (result : Dict) : Dict :=
  match alGet result keySrc with
  | some v => alSet result keyDst v
  | none => result

/-- The two trailing statements of `transform_tense`: add the `elle`/`elles`
forms — if `3sm` is present, set `3sf` to the same value; then, if `3pm` is
present, set `3pf` to the same value. -/
def dupGender (result : Dict) : Dict :=
  dupOne (S "3pm") (S "3pf") (dupOne (S "3sm") (S "3sf") result)

/-- `transform_tense(tense_data, ...)` (the `verb_name`, `mood` and `tense`
arguments of the Python function are unused by its body): rewrite the person
keys and values, then synthesize `3sf` from `3sm` and `3pf` from `3pm`. -/
def transform_tense (tenseData : Dict) : Except Unit Dict := do
  let result ← transformTenseGo [] tenseData
  pure (dupGender result)

/-! ### data_transformer.py — participle transformer -/

/-- The "Transform simple past participles" section of `transform_participle`:
either the four explicit gendered forms, or the last whitespace token of the
compound cell broadcast to all four slots, or nothing. -/
def participleSimplePast (passe : PyVal) : Except Unit Dict := do
  let hasSingulierM ← pyIn (S "singulier_m") passe
  if hasSingulierM then do
    let sm ← pyIndex passe (S "singulier_m")
    let sf ← pyIndex passe (S "singulier_f")
    let pm ← pyIndex passe (S "pluriel_m")
    let pf ← pyIndex passe (S "pluriel_f")
    pure (alSet (alSet (alSet (alSet [] (S "sm") sm) (S "sf") sf) (S "pm") pm) (S "pf") pf)
  else do
    let hasCompose ← pyIn (S "compose") passe
    if hasCompose then do
      let composeVal ← pyIndex passe (S "compose")
      let composeText ← asStr composeVal
      let parts := splitWs composeText
      let invariablePp := parts.getLastD composeText
      pure [(S "sm", PyVal.vstr invariablePp), (S "sf", PyVal.vstr invariablePp),
            (S "pm", PyVal.vstr invariablePp), (S "pf", PyVal.vstr invariablePp)]
    else
      pure []

/-- The "Transform compound participles" section of `transform_participle`,
acting on the `passe` dictionary built so far. -/
def participleCompound (passe : PyVal) (passe1 : Dict) : Except Unit Dict := do
  let hasCompose ← pyIn (S "compose") passe
  if hasCompose then do
    let composeVal ← pyIndex passe (S "compose")
    let hasComma ← pyIn (S ",") composeVal
    if hasComma then do
      let composeText ← asStr composeVal
      -- `parts = [p.strip() for p in compose_text.split(',')]`; the match on
      -- the first four parts is Python's `len(parts) >= 4` branch
      match (splitOnChar ',' composeText).map strip with
      | p0 :: p1 :: p2 :: p3 :: _ =>
        let aux := joinWith [' '] (splitWs p0).dropLast
        pure (alSet (alSet (alSet (alSet passe1
          (S "compound_sm") (.vstr p0))
          (S "compound_sf") (.vstr (aux ++ [' '] ++ p1)))
          (S "compound_pm") (.vstr (aux ++ [' '] ++ p2)))
          (S "compound_pf") (.vstr (aux ++ [' '] ++ p3)))
      | _ =>
        pure (alSet (alSet (alSet (alSet passe1
          (S "compound_sm") (.vstr composeText))
          (S "compound_sf") (.vstr composeText))
          (S "compound_pm") (.vstr composeText))
          (S "compound_pf") (.vstr composeText))
    else
      pure (alSet (alSet (alSet (alSet passe1
        (S "compound_sm") composeVal)
        (S "compound_sf") composeVal)
        (S "compound_pm") composeVal)
        (S "compound_pf") composeVal)
  else
    pure passe1

/-- `transform_participle(participe_data)`. -/
def transform_participle (participeData : Dict) : Except Unit Dict := do
  let present := (alGet participeData (S "present")).getD PyVal.vnone
  let passe := (alGet participeData (S "passe")).getD (PyVal.vdict [])
  if ¬ truthy passe then
    return [(S "present", present), (S "passe", PyVal.vdict [])]
  let passe1 ← participleSimplePast passe
  let passe2 ← participleCompound passe passe1
  pure [(S "present", present), (S "passe", PyVal.vdict passe2)]

/-! ### data_transformer.py — `transform_verb_data` -/

/-- The tense loop of `transform_verb_data` for one mood: every tense value
must be a dict (`.items()` raises otherwise) and is sent through
`transform_tense`. -/
def transformMoodTensesGo (acc : Dict) : Dict → Except Unit Dict
  | [] => .ok acc
  | (tenseKey, tenseData) :: rest => do
    let td ← asDict tenseData
    let tt ← transform_tense td
    transformMoodTensesGo (alSet acc tenseKey (PyVal.vdict tt)) rest

/-- The mood loop of `transform_verb_data` for one voice: the `participe`
entry is skipped here (it was handled by `transform_participle`); every other
mood value must be a dict. -/
def transformVoiceMoodsGo (acc : Dict) : Dict → Except Unit Dict
  | [] => .ok acc
  | (moodKey, moodData) :: rest =>
    if moodKey = S "participe" then
      transformVoiceMoodsGo acc rest
    else do
      let md ← asDict moodData
      let moodOut ← transformMoodTensesGo [] md
      transformVoiceMoodsGo (alSet acc moodKey (PyVal.vdict moodOut)) rest

/-- The voice loop of `transform_verb_data`: `h_aspire` is copied through;
every other entry is treated as a voice: its `participe` member (when the
membership test succeeds) goes through `transform_participle` and the
remaining moods through the mood loop. -/
def transformVerbDataGo (acc : Dict) : Dict → Except Unit Dict
  | [] => .ok acc
  | (voiceKey, voiceData) :: rest =>
    if voiceKey = S "h_aspire" then
      transformVerbDataGo (alSet acc voiceKey voiceData) rest
    else do
      let hasParticipe ← pyIn (S "participe") voiceData
      let inner0 : Dict ←
        if hasParticipe then do
          let p ← pyIndex voiceData (S "participe")
          let pd ← asDict p
          let tp ← transform_participle pd
          pure [(S "participe", PyVal.vdict tp)]
        else
          pure []
      let vd ← asDict voiceData
      let inner ← transformVoiceMoodsGo inner0 vd
      transformVerbDataGo (alSet acc voiceKey (PyVal.vdict inner)) rest

/-- `transform_verb_data(verb_name, verb_data)`: set the 1990 reform
metadata, then transform every voice. -/
def transform_verb_data (verbName : Str) (verbData : Dict) : Except Unit Dict :=
  let rect := has_infinitive_variant verbName
  let variante : PyVal :=
    if rect then
      match get_infinitive_variant verbName with
      | some v => PyVal.vstr v
      | none => PyVal.vnone
    else PyVal.vnone
  let result0 : Dict :=
    alSet (alSet [] (S "rectification_1990") (PyVal.vbool rect))
      (S "rectification_1990_variante") variante
  transformVerbDataGo result0 verbData

/-! ### data_transformer.py — reform-variant synthesizer -/

/-- The metadata keys skipped by `create_reformed_verb_entry`'s voice loop. -/
def metadataKeys : List Str :=
  [S "h_aspire", S "rectification_1990", S "rectification_1990_variante"]

/-- The person loop of `create_reformed_verb_entry`: a value containing a
semicolon (Python `';' in conjugation` — substring on strings, key membership
on dicts, `TypeError` otherwise) has its semicolon-separated variants
reversed; other values are kept. -/
def reformTenseGo (acc : Dict) : Dict → Except Unit Dict
  | [] => .ok acc
  | (personKey, conjugation) :: rest => do
    let hasSemi ← pyIn (S ";") conjugation
    if hasSemi then do
      let s ← asStr conjugation
      let parts := splitOnChar ';' s
      reformTenseGo (alSet acc personKey (PyVal.vstr (joinWith [';'] parts.reverse))) rest
    else
      reformTenseGo (alSet acc personKey conjugation) rest

/-- The person loop of `create_reformed_verb_entry` over one tense dict. -/
def reformTense (tenseData : Dict) : Except Unit Dict :=
  reformTenseGo [] tenseData

/-- The tense loop of `create_reformed_verb_entry` for one mood. -/
def reformMoodGo (acc : Dict) : Dict → Except Unit Dict
  | [] => .ok acc
  | (tenseKey, tenseData) :: rest => do
    let td ← asDict tenseData
    let td' ← reformTense td
    reformMoodGo (alSet acc tenseKey (PyVal.vdict td')) rest

/-- The tense loop of `create_reformed_verb_entry` over one mood dict. -/
def reformMood (moodData : Dict) : Except Unit Dict :=
  reformMoodGo [] moodData

/-- The mood loop of `create_reformed_verb_entry` for one voice: `participe`
entries are skipped (left unchanged). -/
def reformVoiceGo (acc : Dict) : Dict → Except Unit Dict
  | [] => .ok acc
  | (moodKey, moodData) :: rest =>
    if moodKey = S "participe" then
      reformVoiceGo (alSet acc moodKey moodData) rest
    else do
      let md ← asDict moodData
      let md' ← reformMood md
      reformVoiceGo (alSet acc moodKey (PyVal.vdict md')) rest

/-- The mood loop of `create_reformed_verb_entry` over one voice dict. -/
def reformVoice (voiceData : Dict) : Except Unit Dict :=
  reformVoiceGo [] voiceData

/-- The voice loop of `create_reformed_verb_entry`: metadata keys are left
unchanged, every other entry must be a voice dict. -/
def reformRecordGo (acc : Dict) : Dict → Except Unit Dict
  | [] => .ok acc
  | (voiceKey, voiceData) :: rest =>
    if voiceKey ∈ metadataKeys then
      reformRecordGo (alSet acc voiceKey voiceData) rest
    else do
      let vd ← asDict voiceData
      let vd' ← reformVoice vd
      reformRecordGo (alSet acc voiceKey (PyVal.vdict vd')) rest

/-- `create_reformed_verb_entry(verb_name, verb_data)`: `None` when the
infinitive has no variant (or the variant is falsy); otherwise a deep copy of
the record keyed by the reformed infinitive, with the reform metadata updated
and every semicolon-variant list reversed. -/
def create_reformed_verb_entry (verbName : Str) (verbData : Dict) :
    Except Unit (Option (Str × Dict)) := do
  if ¬ has_infinitive_variant verbName then
    return none
  match get_infinitive_variant verbName with
  | none => return none
  | some reformedName =>
    if reformedName.isEmpty then
      return none
    else do
      let d0 := alSet verbData (S "rectification_1990") (PyVal.vbool true)
      let d1 := alSet d0 (S "rectification_1990_variante") (PyVal.vstr verbName)
      let d2 ← reformRecordGo [] d1
      pure (some (reformedName, d2))

instance : Inhabited PyVal := ⟨PyVal.vnone⟩

/-! ### Basic lemmas about the embedding primitives -/

theorem ok_bind {α β : Type} (a : α) (f : α → Except Unit β) :
    (Except.ok a >>= f) = f a := rfl

theorem error_bind {α β : Type} (f : α → Except Unit β) :
    ((Except.error () : Except Unit α) >>= f) = Except.error () := rfl

theorem bind_eq_ok {α β : Type} {x : Except Unit α} {f : α → Except Unit β} {b : β}
    (h : x >>= f = .ok b) : ∃ a, x = .ok a ∧ f a = .ok b := by
  cases x with
  | ok a => exact ⟨a, rfl, h⟩
  | error e => cases e; exact absurd h (by simp [error_bind])

theorem alGet_alSet_self {α : Type} (d : List (Str × α)) (k : Str) (v : α) :
    alGet (alSet d k v) k = some v := by
  induction d with
  | nil => simp [alSet, alGet]
  | cons kv rest ih =>
    by_cases h : kv.1 = k
    · simp [alSet, h, alGet]
    · simp [alSet, h, alGet, ih]

theorem alGet_alSet_ne {α : Type} (d : List (Str × α)) (k k' : Str) (v : α)
    (h : ¬ k = k') : alGet (alSet d k v) k' = alGet d k' := by
  induction d with
  | nil => simp [alSet, alGet, h]
  | cons kv rest ih =>
    rcases kv with ⟨k0, v0⟩
    by_cases h0 : k0 = k
    · have h1 : ¬ k0 = k' := by rw [h0]; exact h
      rw [alSet, if_pos h0, alGet, alGet, if_neg h1, if_neg h1]
    · rw [alSet, if_neg h0, alGet, alGet]
      by_cases h1 : k0 = k'
      · rw [if_pos h1, if_pos h1]
      · rw [if_neg h1, if_neg h1, ih]

theorem alGet_mem {α : Type} {d : List (Str × α)} {k : Str} {v : α}
    (h : alGet d k = some v) : (k, v) ∈ d := by
  induction d with
  | nil => simp [alGet] at h
  | cons kv rest ih =>
    rcases kv with ⟨k0, v0⟩
    by_cases h0 : k0 = k
    · rw [alGet, if_pos h0] at h
      injection h with h
      rw [← h0, h]
      exact List.mem_cons_self _ _
    · rw [alGet, if_neg h0] at h
      exact List.mem_cons_of_mem _ (ih h)

theorem alGet_none_forall {α : Type} {d : List (Str × α)} {k : Str}
    (h : alGet d k = none) : ∀ kv ∈ d, ¬ kv.1 = k := by
  induction d with
  | nil => simp
  | cons kv rest ih =>
    rcases kv with ⟨k0, v0⟩
    by_cases h0 : k0 = k
    · rw [alGet, if_pos h0] at h
      exact absurd h (by simp)
    · rw [alGet, if_neg h0] at h
      intro kv' hkv'
      rcases List.mem_cons.mp hkv' with h1 | h1
      · rw [h1]; exact h0
      · exact ih h kv' h1

theorem mem_alSet {α : Type} {d : List (Str × α)} {k : Str} {v : α} {kv : Str × α}
    (h : kv ∈ alSet d k v) : kv = (k, v) ∨ kv ∈ d := by
  induction d with
  | nil =>
    rw [alSet] at h
    left
    simpa using h
  | cons kv0 rest ih =>
    rcases kv0 with ⟨k0, v0⟩
    by_cases h0 : k0 = k
    · rw [alSet, if_pos h0] at h
      rcases List.mem_cons.mp h with h1 | h1
      · left; rw [h1, h0]
      · right; exact List.mem_cons_of_mem _ h1
    · rw [alSet, if_neg h0] at h
      rcases List.mem_cons.mp h with h1 | h1
      · right; rw [h1]; exact List.mem_cons_self _ _
      · rcases ih h1 with h2 | h2
        · left; exact h2
        · right; exact List.mem_cons_of_mem _ h2

theorem alSet_of_get_none {α : Type} {d : List (Str × α)} {k : Str}
    (h : alGet d k = none) (v : α) : alSet d k v = d ++ [(k, v)] := by
  induction d with
  | nil => simp [alSet]
  | cons kv rest ih =>
    rcases kv with ⟨k0, v0⟩
    by_cases h0 : k0 = k
    · rw [alGet, if_pos h0] at h
      exact absurd h (by simp)
    · rw [alGet, if_neg h0] at h
      rw [alSet, if_neg h0, ih h, List.cons_append]

theorem alSet_self_eq {α : Type} {d : List (Str × α)} {k : Str} {v : α}
    (h : alGet d k = some v) : alSet d k v = d := by
  induction d with
  | nil => simp [alGet] at h
  | cons kv rest ih =>
    rcases kv with ⟨k0, v0⟩
    by_cases h0 : k0 = k
    · rw [alGet, if_pos h0] at h
      injection h with h
      rw [alSet, if_pos h0, h]
    · rw [alGet, if_neg h0] at h
      rw [alSet, if_neg h0, ih h]

theorem alGet_eq_none_iff {α : Type} {d : List (Str × α)} {k : Str} :
    alGet d k = none ↔ k ∉ d.map Prod.fst := by
  induction d with
  | nil => simp [alGet]
  | cons kv rest ih =>
    rcases kv with ⟨k0, v0⟩
    by_cases h0 : k0 = k
    · rw [alGet, if_pos h0]
      constructor
      · intro h1
        exact absurd h1 (by simp)
      · intro h1
        exfalso
        apply h1
        rw [List.map_cons]
        exact List.mem_cons.mpr (Or.inl h0.symm)
    · rw [alGet, if_neg h0]
      rw [ih]
      simp only [List.map_cons, List.mem_cons]
      constructor
      · intro h1 h2
        rcases h2 with h2 | h2
        · exact h0 h2.symm
        · exact h1 h2
      · intro h1 h2
        exact h1 (Or.inr h2)

theorem map_fst_alSet_of_mem {α : Type} {d : List (Str × α)} {k : Str}
    (h : k ∈ d.map Prod.fst) (v : α) :
    (alSet d k v).map Prod.fst = d.map Prod.fst := by
  induction d with
  | nil => simp at h
  | cons kv rest ih =>
    rcases kv with ⟨k0, v0⟩
    by_cases h0 : k0 = k
    · rw [alSet, if_pos h0]
      simp
    · rw [alSet, if_neg h0]
      simp only [List.map_cons, List.mem_cons] at h ⊢
      rcases h with h1 | h1
      · exact absurd h1.symm h0
      · rw [ih h1]

theorem alSet_keys_nodup {α : Type} {d : List (Str × α)}
    (h : (d.map Prod.fst).Nodup) (k : Str) (v : α) :
    ((alSet d k v).map Prod.fst).Nodup := by
  by_cases hm : k ∈ d.map Prod.fst
  · rw [map_fst_alSet_of_mem hm]; exact h
  · rw [alSet_of_get_none (alGet_eq_none_iff.mpr hm)]
    simp only [List.map_append, List.map_cons, List.map_nil]
    exact List.Nodup.append h (by simp) (by
      intro a ha hb
      simp at hb
      rw [hb] at ha
      exact hm ha)

theorem alGet_append_of_none {α : Type} {d1 : List (Str × α)} {k : Str}
    (h : alGet d1 k = none) (d2 : List (Str × α)) :
    alGet (d1 ++ d2) k = alGet d2 k := by
  induction d1 with
  | nil => simp
  | cons kv rest ih =>
    by_cases h0 : kv.1 = k
    · simp [alGet, h0] at h
    · simp [alGet, h0] at h ⊢
      exact ih h

/-! ### String lemmas -/

theorem containsChar_cons (a c : Char) (rest : Str) :
    containsChar a (c :: rest) = (decide (c = a) || containsChar a rest) := rfl

theorem containsChar_iff (a : Char) (s : Str) : containsChar a s = true ↔ a ∈ s := by
  induction s with
  | nil => simp [containsChar]
  | cons c rest ih =>
    rw [containsChar_cons, Bool.or_eq_true, ih, List.mem_cons, decide_eq_true_eq]
    constructor
    · rintro (h | h)
      · exact Or.inl h.symm
      · exact Or.inr h
    · rintro (h | h)
      · exact Or.inl h.symm
      · exact Or.inr h

theorem containsChar_replace_self (a b : Char) (h : ¬ b = a) (s : Str) :
    containsChar a (replaceChar a b s) = false := by
  induction s with
  | nil => rfl
  | cons c rest ih =>
    have step : replaceChar a b (c :: rest) =
        (if c = a then b else c) :: replaceChar a b rest := rfl
    rw [step, containsChar_cons, ih, Bool.or_false]
    by_cases h0 : c = a
    · rw [if_pos h0]
      exact decide_eq_false h
    · rw [if_neg h0]
      exact decide_eq_false h0

theorem containsChar_replace_other (a x y : Char) (hax : ¬ a = x) (hya : ¬ y = a) (s : Str) :
    containsChar a (replaceChar x y s) = containsChar a s := by
  induction s with
  | nil => rfl
  | cons c rest ih =>
    have step : replaceChar x y (c :: rest) =
        (if c = x then y else c) :: replaceChar x y rest := rfl
    rw [step, containsChar_cons, containsChar_cons, ih]
    by_cases h0 : c = x
    · rw [if_pos h0]
      have h1 : (decide (y = a)) = false := decide_eq_false hya
      have h2 : (decide (c = a)) = false := by
        apply decide_eq_false
        rw [h0]
        exact fun h3 => hax h3.symm
      rw [h1, h2]
    · rw [if_neg h0]

theorem has_variant_reformed (s : Str) :
    has_infinitive_variant (replaceChar ucirc 'u' (replaceChar icirc 'i' s)) = false := by
  have h1 : containsChar icirc (replaceChar ucirc 'u' (replaceChar icirc 'i' s)) = false := by
    rw [containsChar_replace_other icirc ucirc 'u' (by decide) (by decide)]
    exact containsChar_replace_self icirc 'i' (by decide) s
  have h2 : containsChar ucirc (replaceChar ucirc 'u' (replaceChar icirc 'i' s)) = false :=
    containsChar_replace_self ucirc 'u' (by decide) _
  simp [has_infinitive_variant, h1, h2]

theorem isSubstr_singleton (c : Char) (s : Str) : isSubstr [c] s = containsChar c s := by
  cases h : containsChar c s with
  | true =>
    rw [containsChar_iff] at h
    obtain ⟨u, w, rfl⟩ := List.append_of_mem h
    rw [isSubstr]
    apply decide_eq_true
    exact ⟨u, w, by simp⟩
  | false =>
    rw [isSubstr]
    apply decide_eq_false
    intro hinf
    have hc : c ∈ s := hinf.sublist.subset (List.mem_singleton_self c)
    rw [← containsChar_iff, h] at hc
    exact Bool.false_ne_true hc

theorem splitOnChar_of_not_contains {sep : Char} {s : Str}
    (h : containsChar sep s = false) : splitOnChar sep s = [s] := by
  induction s with
  | nil => rfl
  | cons c rest ih =>
    simp only [containsChar, List.any_cons, Bool.or_eq_false_iff, decide_eq_false_iff_not] at h
    rw [splitOnChar, if_neg h.1, ih (by simpa [containsChar] using h.2)]

theorem splitOnChar_append {sep : Char} {A : Str} (B : Str)
    (h : containsChar sep A = false) :
    splitOnChar sep (A ++ sep :: B) = A :: splitOnChar sep B := by
  induction A with
  | nil => simp [splitOnChar]
  | cons c rest ih =>
    simp only [containsChar, List.any_cons, Bool.or_eq_false_iff, decide_eq_false_iff_not] at h
    rw [List.cons_append, splitOnChar, if_neg h.1,
      ih (by simpa [containsChar] using h.2)]

theorem joinWith_pair (sep a b : Str) : joinWith sep [a, b] = a ++ sep ++ b := by
  simp [joinWith, List.intercalate]

theorem containsChar_append_cons (c : Char) (A B : Str) :
    containsChar c (A ++ c :: B) = true := by
  simp [containsChar]

theorem replaceCommaSemi_idem (s : Str) :
    replaceCommaSemi (replaceCommaSemi s) = replaceCommaSemi s := by
  simp only [replaceCommaSemi, replaceChar, List.map_map]
  apply List.map_congr_left
  intro a _
  by_cases h : a = ','
  · simp +decide [Function.comp, h]
  · simp +decide [Function.comp, h]

/-! ### Claim C1 — auxiliary resolver on a malformed Passé composé table -/

/-- C1: the spec says a malformed Passé composé table (one missing the
auxiliary cell) is treated identically to "unresolved" and the resolver never
raises to the caller.  The code disagrees: when the Passé composé header is
found but the table lacks a `td.conj_auxil` cell (or lacks a `table` element
altogether), `table.find(...).text` is an attribute access on `None` and
raises `AttributeError`, which propagates out of `parse_conjugation_table`
(the call in `core.parse_conjugation_page` is outside its `try` block).  Only
when no Passé composé header matches does the resolver return `0`
("unresolved") as documented. -/
theorem guess_auxiliary_malformed_table_raises :
    guessAuxiliary (some [⟨true, some ⟨none⟩⟩]) = .error () ∧
      guessAuxiliary (some [⟨true, none⟩]) = .error () ∧
      guessAuxiliary (some []) = .ok 0 ∧
      guessAuxiliary none = .ok 0 :=
  ⟨rfl, rfl, rfl, rfl⟩

/-! ### Claim C2 — idempotence of the normalizer -/

/-- C2 counterexample: the Key/Schema Normalizer is not idempotent at the
record level.  Its output always contains the `rectification_1990` and
`rectification_1990_variante` metadata entries, and a second application
iterates them as voice sections: `'participe' in voice_data` on a boolean
(resp. `None`) raises `TypeError`.  Even for the simplest record
(verb `parler`, no voice data) the second application fails. -/
theorem normalizer_not_idempotent_counterexample :
    transform_verb_data (S "parler") [] =
      .ok [(S "rectification_1990", PyVal.vbool false),
           (S "rectification_1990_variante", PyVal.vnone)] ∧
      transform_verb_data (S "parler")
        [(S "rectification_1990", PyVal.vbool false),
         (S "rectification_1990_variante", PyVal.vnone)] = .error () :=
  ⟨rfl, rfl⟩

/-! ### Claim C3 — the `rectification_1990` flag -/

/-- C3 counterexample: for the reform-variant record the biconditional fails.
For `connaître` the synthesizer outputs a record keyed by the reformed
infinitive `connaitre`, whose `rectification_1990` field is `true`, although
`connaitre` contains neither `î` nor `û`. -/
theorem reform_record_flag_counterexample :
    transform_verb_data (S "connaître") [] =
      .ok [(S "rectification_1990", PyVal.vbool true),
           (S "rectification_1990_variante", PyVal.vstr (S "connaitre"))] ∧
      create_reformed_verb_entry (S "connaître")
        [(S "rectification_1990", PyVal.vbool true),
         (S "rectification_1990_variante", PyVal.vstr (S "connaitre"))] =
        .ok (some (S "connaitre",
          [(S "rectification_1990", PyVal.vbool true),
           (S "rectification_1990_variante", PyVal.vstr (S "connaître"))])) ∧
      has_infinitive_variant (S "connaitre") = false :=
  ⟨rfl, rfl, by decide⟩

/-! ### Claim C6 — reform round-trip -/

/-- C6: for an infinitive containing `î`/`û`, the synthesized reformed
infinitive (`î`→`i`, `û`→`u`, each character substituted over the whole
string) contains neither `î` nor `û`, so the reform-detection predicate
reports no variant for it: one substitution pass reaches a fixed point. -/
theorem reform_roundtrip_fixed_point (s : Str) (h : has_infinitive_variant s = true) :
    ∃ r, get_infinitive_variant s = some r ∧ has_infinitive_variant r = false := by
  refine ⟨replaceChar ucirc 'u' (replaceChar icirc 'i' s), ?_, has_variant_reformed s⟩
  rw [get_infinitive_variant, if_pos h]

/-- Witness for C6 at the concrete infinitive `connaître`. -/
theorem reform_roundtrip_fixed_point_witness :
    has_infinitive_variant (S "connaître") = true ∧
      ∃ r, get_infinitive_variant (S "connaître") = some r ∧
        has_infinitive_variant r = false :=
  ⟨by decide, reform_roundtrip_fixed_point (S "connaître") (by decide)⟩

/-! ### Claim C8 — compound participle expansion -/

/-- C8 counterexample: with compound cell
`"ayant aimé, aimée, aimés, aimées"` (exactly 4 comma-separated parts) the
code stores part 0 verbatim in `compound_sm`; the claim's formula
`auxiliary + " " + part 0` would give `"ayant ayant aimé"`, which differs. -/
theorem compound_sm_counterexample :
    transform_participle
      [(S "passe", PyVal.vdict
        [(S "compose", PyVal.vstr (S "ayant aimé, aimée, aimés, aimées"))])] =
      .ok [(S "present", PyVal.vnone),
           (S "passe", PyVal.vdict
             [(S "sm", PyVal.vstr (S "aimées")), (S "sf", PyVal.vstr (S "aimées")),
              (S "pm", PyVal.vstr (S "aimées")), (S "pf", PyVal.vstr (S "aimées")),
              (S "compound_sm", PyVal.vstr (S "ayant aimé")),
              (S "compound_sf", PyVal.vstr (S "ayant aimée")),
              (S "compound_pm", PyVal.vstr (S "ayant aimés")),
              (S "compound_pf", PyVal.vstr (S "ayant aimées"))])] ∧
      ¬ S "ayant aimé" = S "ayant" ++ [' '] ++ S "ayant aimé" :=
  ⟨rfl, by decide⟩

/-- C8 amended: when the participle compound cell contains a comma and
splits (after stripping) into at least 4 parts, the auxiliary text is all but
the last whitespace word of part 0 and the feminine/plural slots are
`auxiliary + " " + partN`, but `compound_sm` receives part 0 verbatim (not
`auxiliary + " " + part 0`); with fewer than 4 parts the raw compound text is
broadcast unchanged to all four compound slots. -/
theorem compound_participle_expansion
    (pd passe1 : Dict) (composeText p0 p1 p2 p3 : Str) (ps : List Str)
    (hget : alGet pd (S "compose") = some (PyVal.vstr composeText))
    (hcomma : isSubstr (S ",") composeText = true) :
    ((splitOnChar ',' composeText).map strip = p0 :: p1 :: p2 :: p3 :: ps →
      ∃ out, participleCompound (PyVal.vdict pd) passe1 = .ok out ∧
        alGet out (S "compound_sm") = some (PyVal.vstr p0) ∧
        alGet out (S "compound_sf") = some (PyVal.vstr
          (joinWith [' '] (splitWs p0).dropLast ++ [' '] ++ p1)) ∧
        alGet out (S "compound_pm") = some (PyVal.vstr
          (joinWith [' '] (splitWs p0).dropLast ++ [' '] ++ p2)) ∧
        alGet out (S "compound_pf") = some (PyVal.vstr
          (joinWith [' '] (splitWs p0).dropLast ++ [' '] ++ p3))) ∧
    (((splitOnChar ',' composeText).map strip).length < 4 →
      ∃ out, participleCompound (PyVal.vdict pd) passe1 = .ok out ∧
        alGet out (S "compound_sm") = some (PyVal.vstr composeText) ∧
        alGet out (S "compound_sf") = some (PyVal.vstr composeText) ∧
        alGet out (S "compound_pm") = some (PyVal.vstr composeText) ∧
        alGet out (S "compound_pf") = some (PyVal.vstr composeText)) := by
  have hmem : alMem pd (S "compose") = true := by simp [alMem, hget]
  constructor
  · intro hsplit
    have hrun : participleCompound (PyVal.vdict pd) passe1 = .ok
        (alSet (alSet (alSet (alSet passe1
          (S "compound_sm") (PyVal.vstr p0))
          (S "compound_sf") (PyVal.vstr
            (joinWith [' '] (splitWs p0).dropLast ++ [' '] ++ p1)))
          (S "compound_pm") (PyVal.vstr
            (joinWith [' '] (splitWs p0).dropLast ++ [' '] ++ p2)))
          (S "compound_pf") (PyVal.vstr
            (joinWith [' '] (splitWs p0).dropLast ++ [' '] ++ p3))) := by
      simp [participleCompound, pyIn, hmem, pyIndex, hget, asStr, hcomma, hsplit,
        ok_bind]
      rfl
    refine ⟨_, hrun, ?_, ?_, ?_, ?_⟩
    · rw [alGet_alSet_ne _ _ _ _ (by decide), alGet_alSet_ne _ _ _ _ (by decide),
        alGet_alSet_ne _ _ _ _ (by decide), alGet_alSet_self]
    · rw [alGet_alSet_ne _ _ _ _ (by decide), alGet_alSet_ne _ _ _ _ (by decide),
        alGet_alSet_self]
    · rw [alGet_alSet_ne _ _ _ _ (by decide), alGet_alSet_self]
    · rw [alGet_alSet_self]
  · intro hlen
    have hrun : participleCompound (PyVal.vdict pd) passe1 = .ok
        (alSet (alSet (alSet (alSet passe1
          (S "compound_sm") (PyVal.vstr composeText))
          (S "compound_sf") (PyVal.vstr composeText))
          (S "compound_pm") (PyVal.vstr composeText))
          (S "compound_pf") (PyVal.vstr composeText)) := by
      rcases hps : (splitOnChar ',' composeText).map strip with
        _ | ⟨q0, _ | ⟨q1, _ | ⟨q2, _ | ⟨q3, qs⟩⟩⟩⟩
      · simp [participleCompound, pyIn, hmem, pyIndex, hget, asStr, hcomma, hps,
          ok_bind]
      · simp [participleCompound, pyIn, hmem, pyIndex, hget, asStr, hcomma, hps,
          ok_bind]
      · simp [participleCompound, pyIn, hmem, pyIndex, hget, asStr, hcomma, hps,
          ok_bind]
      · simp [participleCompound, pyIn, hmem, pyIndex, hget, asStr, hcomma, hps,
          ok_bind]
      · rw [hps] at hlen
        simp at hlen
        omega
    refine ⟨_, hrun, ?_, ?_, ?_, ?_⟩
    · rw [alGet_alSet_ne _ _ _ _ (by decide), alGet_alSet_ne _ _ _ _ (by decide),
        alGet_alSet_ne _ _ _ _ (by decide), alGet_alSet_self]
    · rw [alGet_alSet_ne _ _ _ _ (by decide), alGet_alSet_ne _ _ _ _ (by decide),
        alGet_alSet_self]
    · rw [alGet_alSet_ne _ _ _ _ (by decide), alGet_alSet_self]
    · rw [alGet_alSet_self]

/-- Witness for C8 at a 4-part compound cell and at a 2-part compound cell. -/
theorem compound_participle_expansion_witness :
    (∃ out, participleCompound (PyVal.vdict [(S "compose",
        PyVal.vstr (S "ayant aimé, aimée, aimés, aimées"))]) [] = .ok out ∧
      alGet out (S "compound_sm") = some (PyVal.vstr (S "ayant aimé")) ∧
      alGet out (S "compound_sf") = some (PyVal.vstr
        (joinWith [' '] (splitWs (S "ayant aimé")).dropLast ++ [' '] ++ S "aimée")) ∧
      alGet out (S "compound_pm") = some (PyVal.vstr
        (joinWith [' '] (splitWs (S "ayant aimé")).dropLast ++ [' '] ++ S "aimés")) ∧
      alGet out (S "compound_pf") = some (PyVal.vstr
        (joinWith [' '] (splitWs (S "ayant aimé")).dropLast ++ [' '] ++ S "aimées"))) ∧
    (∃ out, participleCompound (PyVal.vdict [(S "compose",
        PyVal.vstr (S "aimé, aimée"))]) [] = .ok out ∧
      alGet out (S "compound_sm") = some (PyVal.vstr (S "aimé, aimée")) ∧
      alGet out (S "compound_sf") = some (PyVal.vstr (S "aimé, aimée")) ∧
      alGet out (S "compound_pm") = some (PyVal.vstr (S "aimé, aimée")) ∧
      alGet out (S "compound_pf") = some (PyVal.vstr (S "aimé, aimée"))) :=
  ⟨(compound_participle_expansion
      [(S "compose", PyVal.vstr (S "ayant aimé, aimée, aimés, aimées"))] []
      (S "ayant aimé, aimée, aimés, aimées")
      (S "ayant aimé") (S "aimée") (S "aimés") (S "aimées") [] rfl rfl).1 rfl,
   (compound_participle_expansion
      [(S "compose", PyVal.vstr (S "aimé, aimée"))] []
      (S "aimé, aimée") (S "x") (S "x") (S "x") (S "x") [] rfl rfl).2 (by decide)⟩

/-! ### Claim C9 — no null and no empty string in final tense objects -/

/-- C9 counterexample: a row whose main-verb cell's first text node is `","`
composes to the empty string (the first comma field of `","` is empty), and
that empty string survives into the final transformed output under the
canonical key `1s`. -/
theorem empty_string_in_output_counterexample :
    parseTenseTable [⟨some (S "je"), none, none, some [S ","], none⟩] =
      .ok [(S "je", some []), (S "tu", none), (S "il", none),
           (S "nous", none), (S "vous", none), (S "ils", none)] ∧
      transform_tense (tenseToPy
        [(S "je", some []), (S "tu", none), (S "il", none),
         (S "nous", none), (S "vous", none), (S "ils", none)]) =
        .ok [(S "1s", PyVal.vstr [])] :=
  ⟨rfl, rfl⟩

/-! ### Claim C4 — gender duplication invariant -/

theorem pure_eq_ok {α : Type} {a b : α} (h : (pure a : Except Unit α) = .ok b) : a = b :=
  Except.ok.inj h

theorem alGet_dupOne_ne (ks kd : Str) (r : Dict) (k : Str) (h : ¬ kd = k) :
    alGet (dupOne ks kd r) k = alGet r k := by
  rw [dupOne]
  cases hs : alGet r ks with
  | some v => exact alGet_alSet_ne _ _ _ _ h
  | none => rfl

theorem alGet_dupOne_self {ks kd : Str} {r : Dict} {v : PyVal}
    (h : alGet r ks = some v) : alGet (dupOne ks kd r) kd = some v := by
  rw [dupOne, h, alGet_alSet_self]

theorem dupGender_get_3sm (r : Dict) :
    alGet (dupGender r) (S "3sm") = alGet r (S "3sm") := by
  rw [dupGender, alGet_dupOne_ne _ _ _ _ (by decide), alGet_dupOne_ne _ _ _ _ (by decide)]

theorem dupGender_get_3pm (r : Dict) :
    alGet (dupGender r) (S "3pm") = alGet r (S "3pm") := by
  rw [dupGender, alGet_dupOne_ne _ _ _ _ (by decide), alGet_dupOne_ne _ _ _ _ (by decide)]

theorem dupGender_3sf {r : Dict} {v : PyVal} (h : alGet r (S "3sm") = some v) :
    alGet (dupGender r) (S "3sf") = some v := by
  rw [dupGender, alGet_dupOne_ne _ _ _ _ (by decide)]
  exact alGet_dupOne_self h

theorem dupGender_3pf {r : Dict} {v : PyVal} (h : alGet r (S "3pm") = some v) :
    alGet (dupGender r) (S "3pf") = some v := by
  apply alGet_dupOne_self
  rw [alGet_dupOne_ne _ _ _ _ (by decide)]
  exact h

theorem transform_tense_cases {td out : Dict} (h : transform_tense td = .ok out) :
    ∃ r, transformTenseGo [] td = .ok r ∧ out = dupGender r := by
  rw [transform_tense] at h
  rcases bind_eq_ok h with ⟨r, h1, h2⟩
  exact ⟨r, h1, (pure_eq_ok h2).symm⟩

/-- The canonical internal person keys, in the order of the initial
dictionary of `__parse_tense_table`. -/
def internalPersonKeys : List Str :=
  [S "je", S "tu", S "il", S "nous", S "vous", S "ils"]

theorem mapPronounToKey_mem {p : Str} {k : Str} (h : mapPronounToKey p = some k) :
    k ∈ internalPersonKeys := by
  rw [mapPronounToKey] at h
  split_ifs at h <;> (injection h with h; rw [← h]; decide)

theorem composeStdRow_key {row : ConjRow} {k v : Str}
    (h : composeStdRow row = .ok (some (k, v))) : k ∈ internalPersonKeys := by
  cases hpp : row.conjPp with
  | none =>
    simp only [composeStdRow, hpp] at h
    exact absurd h (by simp)
  | some pp =>
    cases hmk : mapPronounToKey pp with
    | none =>
      simp only [composeStdRow, hpp, hmk] at h
      exact absurd h (by simp)
    | some key =>
      simp only [composeStdRow, hpp, hmk] at h
      cases hcvs : row.conjVerbStrings with
      | none =>
        simp only [hcvs] at h
        exact absurd h (by simp)
      | some l =>
        simp only [hcvs] at h
        cases l with
        | nil => simp at h
        | cons firstText t =>
          simp only [Except.ok.injEq, Option.some.injEq, Prod.mk.injEq] at h
          rw [← h.1]
          exact mapPronounToKey_mem hmk

theorem parseTenseTableGo_keys (rows : List ConjRow) :
    ∀ acc out, acc.map Prod.fst = internalPersonKeys →
      parseTenseTableGo acc rows = .ok out →
      out.map Prod.fst = internalPersonKeys := by
  induction rows with
  | nil =>
    intro acc out hk h
    rw [parseTenseTableGo] at h
    rw [← Except.ok.inj h, hk]
  | cons row rest ih =>
    intro acc out hk h
    rw [parseTenseTableGo] at h
    rcases bind_eq_ok h with ⟨o, ho, h2⟩
    cases o with
    | none => exact ih _ _ hk h2
    | some kv =>
      rcases kv with ⟨k, v⟩
      apply ih _ _ _ h2
      rw [map_fst_alSet_of_mem, hk]
      rw [hk]
      exact composeStdRow_key ho

theorem alGet_compound_chain (d : Dict) (a b c e : PyVal) (k : Str)
    (h1 : ¬ S "compound_sm" = k) (h2 : ¬ S "compound_sf" = k)
    (h3 : ¬ S "compound_pm" = k) (h4 : ¬ S "compound_pf" = k) :
    alGet (alSet (alSet (alSet (alSet d (S "compound_sm") a) (S "compound_sf") b)
      (S "compound_pm") c) (S "compound_pf") e) k = alGet d k := by
  rw [alGet_alSet_ne _ _ _ _ h4, alGet_alSet_ne _ _ _ _ h3,
    alGet_alSet_ne _ _ _ _ h2, alGet_alSet_ne _ _ _ _ h1]

theorem participleSimplePast_keys {p : PyVal} {d : Dict}
    (h : participleSimplePast p = .ok d) :
    alGet d (S "3sf") = none ∧ alGet d (S "3pf") = none := by
  rw [participleSimplePast] at h
  rcases bind_eq_ok h with ⟨hasSm, _, h⟩
  split at h
  · rcases bind_eq_ok h with ⟨sm, _, h⟩
    rcases bind_eq_ok h with ⟨sf, _, h⟩
    rcases bind_eq_ok h with ⟨pm, _, h⟩
    rcases bind_eq_ok h with ⟨pf, _, h⟩
    rw [← pure_eq_ok h]
    constructor <;>
      (rw [alGet_alSet_ne _ _ _ _ (by decide), alGet_alSet_ne _ _ _ _ (by decide),
        alGet_alSet_ne _ _ _ _ (by decide), alGet_alSet_ne _ _ _ _ (by decide)]; rfl)
  · rcases bind_eq_ok h with ⟨hasCompose, _, h⟩
    split at h
    · rcases bind_eq_ok h with ⟨composeVal, _, h⟩
      rcases bind_eq_ok h with ⟨composeText, _, h⟩
      rw [← pure_eq_ok h]
      exact ⟨rfl, rfl⟩
    · rw [← pure_eq_ok h]
      exact ⟨rfl, rfl⟩

theorem participleCompound_keys {p : PyVal} {b d : Dict}
    (h : participleCompound p b = .ok d) :
    alGet d (S "3sf") = alGet b (S "3sf") ∧ alGet d (S "3pf") = alGet b (S "3pf") := by
  rw [participleCompound] at h
  rcases bind_eq_ok h with ⟨hasCompose, _, h⟩
  split at h
  · rcases bind_eq_ok h with ⟨composeVal, _, h⟩
    rcases bind_eq_ok h with ⟨hasComma, _, h⟩
    split at h
    · rcases bind_eq_ok h with ⟨composeText, _, h⟩
      split at h
      · rw [← pure_eq_ok h]
        constructor <;>
          exact alGet_compound_chain _ _ _ _ _ _ (by decide) (by decide) (by decide) (by decide)
      · rw [← pure_eq_ok h]
        constructor <;>
          exact alGet_compound_chain _ _ _ _ _ _ (by decide) (by decide) (by decide) (by decide)
    · rw [← pure_eq_ok h]
      constructor <;>
        exact alGet_compound_chain _ _ _ _ _ _ (by decide) (by decide) (by decide) (by decide)
  · rw [← pure_eq_ok h]
    exact ⟨rfl, rfl⟩

/-- Every run of `transform_participle` yields the two-entry result shape,
and its `passe` dictionary never contains the gendered person keys `3sf`,
`3pf` of the finite-mood normalizer. -/
theorem transform_participle_passe_keys {pd out : Dict}
    (h : transform_participle pd = .ok out) :
    ∃ passe2, out = [(S "present", (alGet pd (S "present")).getD PyVal.vnone),
                     (S "passe", PyVal.vdict passe2)] ∧
      alGet passe2 (S "3sf") = none ∧ alGet passe2 (S "3pf") = none := by
  rw [transform_participle] at h
  split at h
  · exact ⟨[], (Except.ok.inj h).symm, rfl, rfl⟩
  · cases hp1 : participleSimplePast ((alGet pd (S "passe")).getD (PyVal.vdict [])) with
    | error e =>
      cases e
      rw [hp1] at h
      simp only [error_bind, pure_bind] at h
      exact absurd h (by simp)
    | ok passe1 =>
      rw [hp1] at h
      simp only [ok_bind] at h
      cases hp2 : participleCompound ((alGet pd (S "passe")).getD (PyVal.vdict [])) passe1 with
      | error e =>
        cases e
        rw [hp2] at h
        simp only [error_bind, pure_bind] at h
        exact absurd h (by simp)
      | ok passe2 =>
        rw [hp2] at h
        simp only [ok_bind] at h
        refine ⟨passe2, (pure_eq_ok h).symm, ?_, ?_⟩
        · rw [(participleCompound_keys hp2).1, (participleSimplePast_keys hp1).1]
        · rw [(participleCompound_keys hp2).2, (participleSimplePast_keys hp1).2]

/-- C4: (i) for every tense produced by the normalizer, when `3sm` is present
`3sf` holds the identical value, and likewise `3pm`/`3pf`; (ii) the
composer's output carries exactly the six internal person keys, so the
gendered keys exist only after normalization (duplication is
post-composition); (iii) the participle transformer's `passe` dictionary
never contains the gendered person keys (duplication never touches participle
data). -/
theorem gender_duplication_invariant :
    (∀ td out, transform_tense td = .ok out →
      (∀ v, alGet out (S "3sm") = some v → alGet out (S "3sf") = some v) ∧
      (∀ v, alGet out (S "3pm") = some v → alGet out (S "3pf") = some v)) ∧
    (∀ rows t, parseTenseTable rows = .ok t →
      t.map Prod.fst = internalPersonKeys) ∧
    (∀ pd out pD, transform_participle pd = .ok out →
      alGet out (S "passe") = some (PyVal.vdict pD) →
      alGet pD (S "3sf") = none ∧ alGet pD (S "3pf") = none) := by
  refine ⟨?_, ?_, ?_⟩
  · intro td out h
    rcases transform_tense_cases h with ⟨r, _, rfl⟩
    constructor
    · intro v hv
      rw [dupGender_get_3sm] at hv
      exact dupGender_3sf hv
    · intro v hv
      rw [dupGender_get_3pm] at hv
      exact dupGender_3pf hv
  · intro rows t h
    exact parseTenseTableGo_keys rows tenseInit t (by decide) h
  · intro pd out pD h hpasse
    rcases transform_participle_passe_keys h with ⟨passe2, hout, hkeys⟩
    rw [hout] at hpasse
    have : PyVal.vdict passe2 = PyVal.vdict pD := by
      have h1 : alGet [(S "present", (alGet pd (S "present")).getD PyVal.vnone),
          (S "passe", PyVal.vdict passe2)] (S "passe") = some (PyVal.vdict passe2) := rfl
      rw [h1] at hpasse
      exact Option.some.inj hpasse
    injection this with this
    rw [← this]
    exact hkeys

/-- Witness for C4 at a concrete tense, a concrete pair of composer rows, and
a concrete participle block. -/
theorem gender_duplication_invariant_witness :
    (transform_tense [(S "il", PyVal.vstr (S "parle"))] =
      .ok [(S "3sm", PyVal.vstr (S "parle")), (S "3sf", PyVal.vstr (S "parle"))] ∧
      alGet [(S "3sm", PyVal.vstr (S "parle")), (S "3sf", PyVal.vstr (S "parle"))]
        (S "3sf") = some (PyVal.vstr (S "parle"))) ∧
    parseTenseTable [⟨some (S "il"), none, none, some [S "parle"], none⟩]
      = .ok [(S "je", none), (S "tu", none), (S "il", some (S "parle")),
             (S "nous", none), (S "vous", none), (S "ils", none)] ∧
    alGet [(S "sm", PyVal.vstr (S "aimé")), (S "sf", PyVal.vstr (S "aimée")),
           (S "pm", PyVal.vstr (S "aimés")), (S "pf", PyVal.vstr (S "aimées"))]
      (S "3sf") = none := by
  refine ⟨⟨rfl, ?_⟩, rfl, rfl⟩
  exact (gender_duplication_invariant.1 [(S "il", PyVal.vstr (S "parle"))] _ rfl).1
    (PyVal.vstr (S "parle")) rfl

/-! ### Claims C7 and C10 — the imperative composer -/

theorem parseImperativeTable_three (r0 r1 r2 : ImpRow) (v0 v1 v2 : Str)
    (h0 : composeImpRow r0 = .ok v0) (h1 : composeImpRow r1 = .ok v1)
    (h2 : composeImpRow r2 = .ok v2) :
    parseImperativeTable [r0, r1, r2] =
      .ok [(S "tu", some v0), (S "nous", some v1), (S "vous", some v2)] := by
  simp +decide [parseImperativeTable, parseImperativeTableGo, h0, h1, h2, ok_bind,
    alSet, impInit]

/-- C7: imperative row identity is positional — whatever each row's label
text is, the row at index 0 composes into `tu`, index 1 into `nous` and
index 2 into `vous`; in particular three rows with main forms
`parle`, `parlons`, `parlez` and no auxiliary or reflexive cell yield
`{tu: parle, nous: parlons, vous: parlez}` for every choice of labels. -/
theorem imperative_positional :
    (∀ (r0 r1 r2 : ImpRow) (v0 v1 v2 : Str),
      composeImpRow r0 = .ok v0 → composeImpRow r1 = .ok v1 → composeImpRow r2 = .ok v2 →
      parseImperativeTable [r0, r1, r2] =
        .ok [(S "tu", some v0), (S "nous", some v1), (S "vous", some v2)]) ∧
    (∀ l0 l1 l2 : Option Str,
      parseImperativeTable
        [⟨l0, none, none, some [S "parle"]⟩,
         ⟨l1, none, none, some [S "parlons"]⟩,
         ⟨l2, none, none, some [S "parlez"]⟩] =
        .ok [(S "tu", some (S "parle")), (S "nous", some (S "parlons")),
             (S "vous", some (S "parlez"))]) :=
  ⟨parseImperativeTable_three,
   fun l0 l1 l2 => parseImperativeTable_three _ _ _ _ _ _ rfl rfl rfl⟩

/-- Witness for C7: the labels contradict the positions (`vous`, `tu`,
`nous`) and are ignored. -/
theorem imperative_positional_witness :
    parseImperativeTable
      [⟨some (S "vous"), none, none, some [S "parle"]⟩,
       ⟨some (S "tu"), none, none, some [S "parlons"]⟩,
       ⟨some (S "nous"), none, none, some [S "parlez"]⟩] =
      .ok [(S "tu", some (S "parle")), (S "nous", some (S "parlons")),
           (S "vous", some (S "parlez"))] :=
  imperative_positional.1 _ _ _ _ _ _ rfl rfl rfl

theorem parseImperativeTableGo_tail (rest : List ImpRow) :
    ∀ i acc, 2 ≤ i → (∀ row ∈ rest, ∃ v, composeImpRow row = .ok v) →
      (rest = [] ∧ parseImperativeTableGo i acc rest = .ok acc) ∨
      (∃ out rl vl, parseImperativeTableGo i acc rest = .ok out ∧
        rest.getLast? = some rl ∧ composeImpRow rl = .ok vl ∧
        alGet out (S "vous") = some (some vl) ∧
        ((S "vous") ∈ acc.map Prod.fst → out.map Prod.fst = acc.map Prod.fst)) := by
  induction rest with
  | nil =>
    intro i acc _ _
    exact Or.inl ⟨rfl, by rw [parseImperativeTableGo]⟩
  | cons row rest' ih =>
    intro i acc hi hall
    obtain ⟨v, hv⟩ := hall row (List.mem_cons_self _ _)
    have hi0 : ¬ i = 0 := by omega
    have hi1 : ¬ i = 1 := by omega
    have hstep : parseImperativeTableGo i acc (row :: rest') =
        parseImperativeTableGo (i + 1) (alSet acc (S "vous") (some v)) rest' := by
      simp only [parseImperativeTableGo, hv, ok_bind, if_neg hi0, if_neg hi1]
    have hvmem : (S "vous") ∈ (alSet acc (S "vous") (some v)).map Prod.fst := by
      apply List.mem_map.mpr
      exact ⟨(S "vous", some v), alGet_mem (alGet_alSet_self acc (S "vous") (some v)), rfl⟩
    rcases ih (i + 1) (alSet acc (S "vous") (some v)) (by omega)
        (fun r hr => hall r (List.mem_cons_of_mem _ hr)) with ⟨hnil, heq⟩ | hrec
    · subst hnil
      refine Or.inr ⟨alSet acc (S "vous") (some v), row, v, ?_, rfl, hv, ?_, ?_⟩
      · rw [hstep, heq]
      · exact alGet_alSet_self acc (S "vous") (some v)
      · intro hmem
        exact map_fst_alSet_of_mem hmem (some v)
    · obtain ⟨out, rl, vl, hgo, hlast, hcomp, hget, hkeys⟩ := hrec
      have hne : rest' ≠ [] := by
        intro hcon
        rw [hcon] at hlast
        exact absurd hlast (by simp)
      refine Or.inr ⟨out, rl, vl, ?_, ?_, hcomp, hget, ?_⟩
      · rw [hstep, hgo]
      · cases rest' with
        | nil => exact absurd rfl hne
        | cons b l => rw [List.getLast?_cons_cons]; exact hlast
      · intro hmem
        rw [hkeys hvmem]
        exact map_fst_alSet_of_mem hmem (some v)

/-- C10: an imperative table with more than 3 rows raises no error — every
row at index 2 or greater is stored under `vous`, so the last row's composed
value wins, and the result's key set is always exactly `{tu, nous, vous}`. -/
theorem imperative_extra_rows (r0 r1 : ImpRow) (rest : List ImpRow)
    (hlen : 1 < rest.length)
    (hall : ∀ row ∈ r0 :: r1 :: rest, ∃ v, composeImpRow row = .ok v) :
    ∃ out, parseImperativeTable (r0 :: r1 :: rest) = .ok out ∧
      out.map Prod.fst = [S "tu", S "nous", S "vous"] ∧
      ∃ rl vl, (r0 :: r1 :: rest).getLast? = some rl ∧ composeImpRow rl = .ok vl ∧
        alGet out (S "vous") = some (some vl) := by
  obtain ⟨v0, h0⟩ := hall r0 (List.mem_cons_self _ _)
  obtain ⟨v1, h1⟩ := hall r1 (List.mem_cons_of_mem _ (List.mem_cons_self _ _))
  have hstep0 : parseImperativeTable (r0 :: r1 :: rest) =
      parseImperativeTableGo 2
        [(S "tu", some v0), (S "nous", some v1), (S "vous", none)] rest := by
    simp +decide [parseImperativeTable, parseImperativeTableGo, h0, h1, ok_bind,
      alSet, impInit]
  rcases parseImperativeTableGo_tail rest 2
      [(S "tu", some v0), (S "nous", some v1), (S "vous", none)] (by omega)
      (fun r hr => hall r (List.mem_cons_of_mem _ (List.mem_cons_of_mem _ hr)))
    with ⟨hnil, _⟩ | hrec
  · rw [hnil] at hlen
    exact absurd hlen (by simp)
  · obtain ⟨out, rl, vl, hgo, hlast, hcomp, hget, hkeys⟩ := hrec
    have hne : rest ≠ [] := by
      intro hcon
      rw [hcon] at hlast
      exact absurd hlast (by simp)
    refine ⟨out, by rw [hstep0, hgo], ?_, rl, vl, ?_, hcomp, hget⟩
    · rw [hkeys (List.mem_map.mpr ⟨(S "vous", none), by simp, rfl⟩)]
      rfl
    · cases rest with
      | nil => exact absurd rfl hne
      | cons b l =>
        rw [List.getLast?_cons_cons, List.getLast?_cons_cons]
        exact hlast

/-- Witness for C10 at a concrete 4-row imperative table. -/
theorem imperative_extra_rows_witness :
    ∃ out, parseImperativeTable
        [⟨none, none, none, some [S "a"]⟩, ⟨none, none, none, some [S "b"]⟩,
         ⟨none, none, none, some [S "c"]⟩, ⟨none, none, none, some [S "d"]⟩] =
        .ok out ∧
      out.map Prod.fst = [S "tu", S "nous", S "vous"] ∧
      ∃ rl vl,
        ([⟨none, none, none, some [S "a"]⟩, ⟨none, none, none, some [S "b"]⟩,
          ⟨none, none, none, some [S "c"]⟩,
          (⟨none, none, none, some [S "d"]⟩ : ImpRow)] : List ImpRow).getLast? = some rl ∧
        composeImpRow rl = .ok vl ∧ alGet out (S "vous") = some (some vl) :=
  imperative_extra_rows _ _ _ (by decide)
    (fun row hr => by fin_cases hr <;> exact ⟨_, rfl⟩)

/-! ### Claim C2 — idempotence of the normalizer (tense level) -/

/-- An output entry of `transform_tense` is canonical: its key is outside the
domain of `PERSON_MAPPING`, and its value is a string already free of commas
(so a second rewrite pass is the identity on it). -/
def canonEntry (kv : Str × PyVal) : Prop :=
  alGet PERSON_MAPPING kv.1 = none ∧
    ∃ s, kv.2 = PyVal.vstr s ∧ replaceCommaSemi s = s

theorem person_mapping_range {k m : Str} (h : alGet PERSON_MAPPING k = some m) :
    alGet PERSON_MAPPING m = none := by
  simp only [PERSON_MAPPING, alGet] at h
  split_ifs at h <;> (injection h with h; rw [← h]; decide)

theorem newKey_unmapped (k : Str) :
    alGet PERSON_MAPPING ((alGet PERSON_MAPPING k).getD k) = none := by
  cases hk : alGet PERSON_MAPPING k with
  | none => simpa using hk
  | some m =>
    simp only [Option.getD_some]
    exact person_mapping_range hk

theorem transformTenseGo_canon (td : Dict) : ∀ acc r,
    (∀ kv ∈ acc, canonEntry kv) → transformTenseGo acc td = .ok r →
    ∀ kv ∈ r, canonEntry kv := by
  induction td with
  | nil =>
    intro acc r hacc h
    rw [transformTenseGo] at h
    rw [← Except.ok.inj h]
    exact hacc
  | cons kv0 rest ih =>
    intro acc r hacc h
    rcases kv0 with ⟨k0, v0⟩
    cases v0 with
    | vnone => exact ih acc r hacc h
    | vstr s =>
      refine ih _ r ?_ h
      intro kv hkv
      rcases mem_alSet hkv with h1 | h1
      · rw [h1]
        exact ⟨newKey_unmapped k0, replaceCommaSemi s, rfl, replaceCommaSemi_idem s⟩
      · exact hacc kv h1
    | vbool b =>
      simp only [transformTenseGo] at h
      exact absurd h (by simp)
    | vdict d =>
      simp only [transformTenseGo] at h
      exact absurd h (by simp)

theorem transformTenseGo_nodup (td : Dict) : ∀ acc r,
    (acc.map Prod.fst).Nodup → transformTenseGo acc td = .ok r →
    (r.map Prod.fst).Nodup := by
  induction td with
  | nil =>
    intro acc r hacc h
    rw [transformTenseGo] at h
    rw [← Except.ok.inj h]
    exact hacc
  | cons kv0 rest ih =>
    intro acc r hacc h
    rcases kv0 with ⟨k0, v0⟩
    cases v0 with
    | vnone => exact ih acc r hacc h
    | vstr s => exact ih _ r (alSet_keys_nodup hacc _ _) h
    | vbool b =>
      simp only [transformTenseGo] at h
      exact absurd h (by simp)
    | vdict d =>
      simp only [transformTenseGo] at h
      exact absurd h (by simp)

theorem dupOne_canon {ks kd : Str} {r : Dict} (hkd : alGet PERSON_MAPPING kd = none)
    (hc : ∀ kv ∈ r, canonEntry kv) : ∀ kv ∈ dupOne ks kd r, canonEntry kv := by
  rw [dupOne]
  cases hs : alGet r ks with
  | some v =>
    intro kv hkv
    rcases mem_alSet hkv with h1 | h1
    · rw [h1]
      exact ⟨hkd, (hc (ks, v) (alGet_mem hs)).2⟩
    · exact hc kv h1
  | none => exact hc

theorem dupOne_nodup {ks kd : Str} {r : Dict} (h : (r.map Prod.fst).Nodup) :
    ((dupOne ks kd r).map Prod.fst).Nodup := by
  rw [dupOne]
  cases hs : alGet r ks with
  | some v => exact alSet_keys_nodup h _ _
  | none => exact h

theorem dupOne_dupOne (ks kd : Str) (r : Dict) (hne : ¬ kd = ks) :
    dupOne ks kd (dupOne ks kd r) = dupOne ks kd r := by
  have hget : alGet (dupOne ks kd r) ks = alGet r ks := alGet_dupOne_ne _ _ _ _ hne
  rw [dupOne, hget]
  cases hs : alGet r ks with
  | some v => exact alSet_self_eq (alGet_dupOne_self hs)
  | none => rfl

theorem dupGender_idem (r : Dict) : dupGender (dupGender r) = dupGender r := by
  rw [dupGender, dupGender]
  have hsm : dupOne (S "3sm") (S "3sf")
      (dupOne (S "3pm") (S "3pf") (dupOne (S "3sm") (S "3sf") r)) =
      dupOne (S "3pm") (S "3pf") (dupOne (S "3sm") (S "3sf") r) := by
    have hget : alGet (dupOne (S "3pm") (S "3pf") (dupOne (S "3sm") (S "3sf") r))
        (S "3sm") = alGet r (S "3sm") := by
      rw [alGet_dupOne_ne _ _ _ _ (by decide), alGet_dupOne_ne _ _ _ _ (by decide)]
    rw [dupOne, hget]
    cases hs : alGet r (S "3sm") with
    | some v =>
      apply alSet_self_eq
      rw [alGet_dupOne_ne _ _ _ _ (by decide)]
      exact alGet_dupOne_self hs
    | none => rfl
  rw [hsm, dupOne_dupOne _ _ _ (by decide)]

theorem transformTenseGo_canon_id (l : Dict) :
    (∀ kv ∈ l, canonEntry kv) → (l.map Prod.fst).Nodup →
    ∀ acc, (∀ k ∈ l.map Prod.fst, alGet acc k = none) →
    transformTenseGo acc l = .ok (acc ++ l) := by
  induction l with
  | nil =>
    intro _ _ acc _
    rw [transformTenseGo, List.append_nil]
  | cons kv0 rest ih =>
    intro hcanon hnodup acc hacc
    rcases kv0 with ⟨k0, v0⟩
    obtain ⟨hk0, s, hv0, hs⟩ := hcanon (k0, v0) (List.mem_cons_self _ _)
    have hv0' : v0 = PyVal.vstr s := hv0
    have hk0' : alGet PERSON_MAPPING k0 = none := hk0
    subst hv0'
    rw [transformTenseGo]
    have hkey : (alGet PERSON_MAPPING k0).getD k0 = k0 := by rw [hk0']; rfl
    rw [hkey, hs]
    have hget : alGet acc k0 = none := hacc k0 (by simp)
    rw [alSet_of_get_none hget]
    have hnd : (rest.map Prod.fst).Nodup := by
      simp only [List.map_cons, List.nodup_cons] at hnodup
      exact hnodup.2
    have hk0rest : k0 ∉ rest.map Prod.fst := by
      simp only [List.map_cons, List.nodup_cons] at hnodup
      exact hnodup.1
    have := ih (fun kv hkv => hcanon kv (List.mem_cons_of_mem _ hkv)) hnd
      (acc ++ [(k0, PyVal.vstr s)])
      (by
        intro k hk
        rw [alGet_append_of_none (hacc k (by simp [hk]))]
        rw [alGet]
        rw [if_neg (by
          intro hcon
          rw [hcon] at hk0rest
          exact hk0rest hk)]
        rfl)
    rw [this, List.append_assoc]
    rfl

theorem transform_tense_canon {td out : Dict} (h : transform_tense td = .ok out) :
    (∀ kv ∈ out, canonEntry kv) ∧ (out.map Prod.fst).Nodup := by
  rcases transform_tense_cases h with ⟨r, hgo, rfl⟩
  have hcanon : ∀ kv ∈ r, canonEntry kv :=
    transformTenseGo_canon td [] r (by simp) hgo
  have hnodup : (r.map Prod.fst).Nodup :=
    transformTenseGo_nodup td [] r (by simp) hgo
  constructor
  · rw [dupGender]
    exact dupOne_canon (by decide) (dupOne_canon (by decide) hcanon)
  · rw [dupGender]
    exact dupOne_nodup (dupOne_nodup hnodup)

/-- C2 (amended): the record-level normalizer `transform_verb_data` is not
re-applicable to its own output (see the counterexample), but at the tense
level normalization is idempotent: re-running `transform_tense` on any of its
own outputs returns that output unchanged. -/
theorem transform_tense_idempotent (td out : Dict)
    (h : transform_tense td = .ok out) : transform_tense out = .ok out := by
  obtain ⟨hcanon, hnodup⟩ := transform_tense_canon h
  have hgo2 : transformTenseGo [] out = .ok ([] ++ out) :=
    transformTenseGo_canon_id out hcanon hnodup [] (fun k _ => rfl)
  rcases transform_tense_cases h with ⟨r, hgo, rfl⟩
  rw [transform_tense, hgo2]
  simp only [ok_bind, List.nil_append]
  rw [dupGender_idem]
  rfl

/-- Witness for C2's amended theorem at a concrete tense. -/
theorem transform_tense_idempotent_witness :
    transform_tense [(S "il", PyVal.vstr (S "croit,croît"))] =
      .ok [(S "3sm", PyVal.vstr (S "croit;croît")),
           (S "3sf", PyVal.vstr (S "croit;croît"))] ∧
      transform_tense [(S "3sm", PyVal.vstr (S "croit;croît")),
                       (S "3sf", PyVal.vstr (S "croit;croît"))] =
        .ok [(S "3sm", PyVal.vstr (S "croit;croît")),
             (S "3sf", PyVal.vstr (S "croit;croît"))] :=
  ⟨rfl, transform_tense_idempotent [(S "il", PyVal.vstr (S "croit,croît"))] _ rfl⟩

/-! ### Claim C9 — no null in the final tense objects (amended) -/

/-- A value of a `transform_tense` output traces back to a non-`None` string
value of its input. -/
def tenseValueFrom (td : Dict) (v : PyVal) : Prop :=
  ∃ k0 s0, (k0, PyVal.vstr s0) ∈ td ∧ v = PyVal.vstr (replaceCommaSemi s0)

theorem transformTenseGo_from (td : Dict) : ∀ (l acc r : Dict),
    (∀ kv ∈ l, kv ∈ td) → (∀ kv ∈ acc, tenseValueFrom td kv.2) →
    transformTenseGo acc l = .ok r → ∀ kv ∈ r, tenseValueFrom td kv.2 := by
  intro l
  induction l with
  | nil =>
    intro acc r _ hacc h
    rw [transformTenseGo] at h
    rw [← Except.ok.inj h]
    exact hacc
  | cons kv0 rest ih =>
    intro acc r hsub hacc h
    rcases kv0 with ⟨k0, v0⟩
    cases v0 with
    | vnone => exact ih acc r (fun kv hkv => hsub kv (List.mem_cons_of_mem _ hkv)) hacc h
    | vstr s =>
      refine ih _ r (fun kv hkv => hsub kv (List.mem_cons_of_mem _ hkv)) ?_ h
      intro kv hkv
      rcases mem_alSet hkv with h1 | h1
      · rw [h1]
        exact ⟨k0, s, hsub (k0, PyVal.vstr s) (List.mem_cons_self _ _), rfl⟩
      · exact hacc kv h1
    | vbool b =>
      simp only [transformTenseGo] at h
      exact absurd h (by simp)
    | vdict d =>
      simp only [transformTenseGo] at h
      exact absurd h (by simp)

theorem dupOne_from {td : Dict} {ks kd : Str} {r : Dict}
    (hc : ∀ kv ∈ r, tenseValueFrom td kv.2) :
    ∀ kv ∈ dupOne ks kd r, tenseValueFrom td kv.2 := by
  rw [dupOne]
  cases hs : alGet r ks with
  | some v =>
    intro kv hkv
    rcases mem_alSet hkv with h1 | h1
    · rw [h1]
      exact hc (ks, v) (alGet_mem hs)
    · exact hc kv h1
  | none => exact hc

/-- C9 (amended): no canonical person key of a normalized tense ever maps to
null — `None`-valued persons of the composer output are dropped by
`transform_tense`, and every value in its output is the comma-to-semicolon
rewrite of some non-`None` string value of the input.  (The empty string is
still reachable — see the counterexample — but only when a composed
person-form is itself the empty string.) -/
theorem no_null_in_tense_output (td out : Dict) (h : transform_tense td = .ok out) :
    ∀ k v, alGet out k = some v →
      ∃ k0 s0, (k0, PyVal.vstr s0) ∈ td ∧ v = PyVal.vstr (replaceCommaSemi s0) := by
  rcases transform_tense_cases h with ⟨r, hgo, rfl⟩
  have hr : ∀ kv ∈ r, tenseValueFrom td kv.2 :=
    transformTenseGo_from td td [] r (fun kv hkv => hkv) (by simp) hgo
  have hdup : ∀ kv ∈ dupGender r, tenseValueFrom td kv.2 := by
    rw [dupGender]
    exact dupOne_from (dupOne_from hr)
  intro k v hget
  exact hdup (k, v) (alGet_mem hget)

/-- Witness for C9's amended theorem at a concrete composed tense. -/
theorem no_null_in_tense_output_witness :
    ∃ k0 s0, (k0, PyVal.vstr s0) ∈
        [(S "je", PyVal.vstr (S "parle")), (S "tu", PyVal.vnone)] ∧
      PyVal.vstr (S "parle") = PyVal.vstr (replaceCommaSemi s0) :=
  no_null_in_tense_output [(S "je", PyVal.vstr (S "parle")), (S "tu", PyVal.vnone)]
    [(S "1s", PyVal.vstr (S "parle"))] rfl (S "1s") (PyVal.vstr (S "parle")) rfl

/-! ### Claim C3 — the `rectification_1990` flag (amended) -/

theorem transformVerbDataGo_frozen (l : Dict) : ∀ acc out key,
    (∀ kv ∈ l, ¬ kv.1 = key) → transformVerbDataGo acc l = .ok out →
    alGet out key = alGet acc key := by
  induction l with
  | nil =>
    intro acc out key _ h
    rw [transformVerbDataGo] at h
    rw [← Except.ok.inj h]
  | cons kv0 rest ih =>
    intro acc out key hne h
    rcases kv0 with ⟨k0, v0⟩
    have hk0 : ¬ k0 = key := hne (k0, v0) (List.mem_cons_self _ _)
    rw [transformVerbDataGo] at h
    split at h
    · rw [ih _ _ _ (fun kv hkv => hne kv (List.mem_cons_of_mem _ hkv)) h]
      exact alGet_alSet_ne _ _ _ _ hk0
    · rcases bind_eq_ok h with ⟨hasPart, _, h⟩
      cases hasPart with
      | false =>
        replace h : (do
            let vd ← asDict v0
            let inner ← transformVoiceMoodsGo [] vd
            transformVerbDataGo (alSet acc k0 (PyVal.vdict inner)) rest) =
            Except.ok out := h
        rcases bind_eq_ok h with ⟨vd, _, h⟩
        rcases bind_eq_ok h with ⟨inner, _, h⟩
        rw [ih _ _ _ (fun kv hkv => hne kv (List.mem_cons_of_mem _ hkv)) h]
        exact alGet_alSet_ne _ _ _ _ hk0
      | true =>
        replace h : (do
            let p ← pyIndex v0 (S "participe")
            let pd ← asDict p
            let tp ← transform_participle pd
            let vd ← asDict v0
            let inner ← transformVoiceMoodsGo [(S "participe", PyVal.vdict tp)] vd
            transformVerbDataGo (alSet acc k0 (PyVal.vdict inner)) rest) =
            Except.ok out := h
        rcases bind_eq_ok h with ⟨p, _, h⟩
        rcases bind_eq_ok h with ⟨pd, _, h⟩
        rcases bind_eq_ok h with ⟨tp, _, h⟩
        rcases bind_eq_ok h with ⟨vd, _, h⟩
        rcases bind_eq_ok h with ⟨inner, _, h⟩
        rw [ih _ _ _ (fun kv hkv => hne kv (List.mem_cons_of_mem _ hkv)) h]
        exact alGet_alSet_ne _ _ _ _ hk0

theorem reformRecordGo_frozen (l : Dict) : ∀ acc out key,
    (∀ kv ∈ l, ¬ kv.1 = key) → reformRecordGo acc l = .ok out →
    alGet out key = alGet acc key := by
  induction l with
  | nil =>
    intro acc out key _ h
    rw [reformRecordGo] at h
    rw [← Except.ok.inj h]
  | cons kv0 rest ih =>
    intro acc out key hne h
    rcases kv0 with ⟨k0, v0⟩
    have hk0 : ¬ k0 = key := hne (k0, v0) (List.mem_cons_self _ _)
    rw [reformRecordGo] at h
    split at h
    · rw [ih _ _ _ (fun kv hkv => hne kv (List.mem_cons_of_mem _ hkv)) h]
      exact alGet_alSet_ne _ _ _ _ hk0
    · rcases bind_eq_ok h with ⟨vd, _, h⟩
      rcases bind_eq_ok h with ⟨vd', _, h⟩
      rw [ih _ _ _ (fun kv hkv => hne kv (List.mem_cons_of_mem _ hkv)) h]
      exact alGet_alSet_ne _ _ _ _ hk0

theorem reformRecordGo_get_meta (l : Dict) : ∀ acc out key v,
    (l.map Prod.fst).Nodup → alGet l key = some v → key ∈ metadataKeys →
    reformRecordGo acc l = .ok out → alGet out key = some v := by
  induction l with
  | nil =>
    intro acc out key v _ hget _ _
    simp [alGet] at hget
  | cons kv0 rest ih =>
    intro acc out key v hnodup hget hmeta h
    rcases kv0 with ⟨k0, v0⟩
    rw [alGet] at hget
    rw [reformRecordGo] at h
    simp only [List.map_cons, List.nodup_cons] at hnodup
    by_cases hk0 : k0 = key
    · rw [if_pos hk0] at hget
      injection hget with hget
      subst hget
      subst hk0
      rw [if_pos hmeta] at h
      have hfroz : alGet out k0 = alGet (alSet acc k0 v0) k0 := by
        apply reformRecordGo_frozen rest _ _ _ _ h
        intro kv hkv hcon
        exact hnodup.1 (hcon ▸ List.mem_map.mpr ⟨kv, hkv, rfl⟩)
      rw [hfroz, alGet_alSet_self]
    · rw [if_neg hk0] at hget
      split at h
      · exact ih _ _ _ _ hnodup.2 hget hmeta h
      · rcases bind_eq_ok h with ⟨vd, _, h⟩
        rcases bind_eq_ok h with ⟨vd', _, h⟩
        exact ih _ _ _ _ hnodup.2 hget hmeta h

/-- Inversion for a successful `create_reformed_verb_entry`: the infinitive
has a variant, the new key is the reformed infinitive, and the record is the
reform fold of the metadata-updated copy. -/
theorem create_reformed_cases {v : Str} {d : Dict} {n : Str} {rd : Dict}
    (h : create_reformed_verb_entry v d = .ok (some (n, rd))) :
    has_infinitive_variant v = true ∧
      n = replaceChar ucirc 'u' (replaceChar icirc 'i' v) ∧
      reformRecordGo []
        (alSet (alSet d (S "rectification_1990") (PyVal.vbool true))
          (S "rectification_1990_variante") (PyVal.vstr v)) = .ok rd := by
  by_cases hv : has_infinitive_variant v = true
  · refine ⟨hv, ?_⟩
    have hne : (replaceChar ucirc 'u' (replaceChar icirc 'i' v)).isEmpty = false := by
      have hvne : v ≠ [] := by
        intro hcon
        rw [hcon] at hv
        exact absurd hv (by decide)
      cases v with
      | nil => exact absurd rfl hvne
      | cons c rest => rfl
    rw [create_reformed_verb_entry] at h
    simp [hv, get_infinitive_variant, hne] at h
    cases hgo : reformRecordGo []
        (alSet (alSet d (S "rectification_1990") (PyVal.vbool true))
          (S "rectification_1990_variante") (PyVal.vstr v)) with
    | error e =>
      cases e
      rw [hgo] at h
      simp at h
    | ok d2 =>
      rw [hgo] at h
      simp at h
      exact ⟨h.1.symm, h.2 ▸ rfl⟩
  · rw [create_reformed_verb_entry] at h
    simp only [Bool.not_eq_true] at hv
    simp [hv] at h
    exact absurd (pure_eq_ok h) (by simp)

/-- C3 (amended): for the original record, `rectification_1990` is `true` iff
the infinitive it is keyed by contains `î` or `û` (provided the parsed input
does not itself carry the metadata key, which the parser's output never
does).  For the reform-variant record the biconditional fails as stated: its
`rectification_1990` field is always `true`, although the reformed infinitive
it is keyed by never contains `î` or `û`. -/
theorem rectification_flag_characterization :
    (∀ v d out, alGet d (S "rectification_1990") = none →
      transform_verb_data v d = .ok out →
      alGet out (S "rectification_1990") =
        some (PyVal.vbool (has_infinitive_variant v))) ∧
    (∀ v d n rd, (d.map Prod.fst).Nodup →
      create_reformed_verb_entry v d = .ok (some (n, rd)) →
      alGet rd (S "rectification_1990") = some (PyVal.vbool true) ∧
        has_infinitive_variant n = false) := by
  constructor
  · intro v d out hnone h
    rw [transform_verb_data] at h
    have hfroz := transformVerbDataGo_frozen d _ out (S "rectification_1990")
      (alGet_none_forall hnone) h
    rw [hfroz]
    rfl
  · intro v d n rd hnodup h
    obtain ⟨hv, hn, hgo⟩ := create_reformed_cases h
    constructor
    · have hd1 : alGet
          (alSet (alSet d (S "rectification_1990") (PyVal.vbool true))
            (S "rectification_1990_variante") (PyVal.vstr v))
          (S "rectification_1990") = some (PyVal.vbool true) := by
        rw [alGet_alSet_ne _ _ _ _ (by decide), alGet_alSet_self]
      apply reformRecordGo_get_meta _ [] rd _ _ _ hd1 (by decide) hgo
      exact alSet_keys_nodup (alSet_keys_nodup hnodup _ _) _ _
    · rw [hn]
      exact has_variant_reformed v

/-- Witness for C3's amended theorem at the verb `connaître`. -/
theorem rectification_flag_characterization_witness :
    alGet [(S "rectification_1990", PyVal.vbool true),
           (S "rectification_1990_variante", PyVal.vstr (S "connaitre"))]
        (S "rectification_1990") =
      some (PyVal.vbool (has_infinitive_variant (S "connaître"))) ∧
      alGet [(S "rectification_1990", PyVal.vbool true),
             (S "rectification_1990_variante", PyVal.vstr (S "connaître"))]
          (S "rectification_1990") = some (PyVal.vbool true) ∧
        has_infinitive_variant (S "connaitre") = false :=
  ⟨rectification_flag_characterization.1 (S "connaître") [] _ rfl rfl,
   rectification_flag_characterization.2 (S "connaître")
     [(S "rectification_1990", PyVal.vbool true),
      (S "rectification_1990_variante", PyVal.vstr (S "connaitre"))]
     (S "connaitre") _ (by decide) rfl⟩

/-! ### Claim C5 — variant order inversion in the reform record -/

theorem reformTenseGo_frozen (l : Dict) : ∀ acc out key,
    (∀ kv ∈ l, ¬ kv.1 = key) → reformTenseGo acc l = .ok out →
    alGet out key = alGet acc key := by
  induction l with
  | nil =>
    intro acc out key _ h
    rw [reformTenseGo] at h
    rw [← Except.ok.inj h]
  | cons kv0 rest ih =>
    intro acc out key hne h
    rcases kv0 with ⟨k0, v0⟩
    have hk0 : ¬ k0 = key := hne _ (List.mem_cons_self _ _)
    rw [reformTenseGo] at h
    rcases bind_eq_ok h with ⟨hasSemi, _, h⟩
    split at h
    · rcases bind_eq_ok h with ⟨s, _, h⟩
      rw [ih _ _ _ (fun kv hkv => hne kv (List.mem_cons_of_mem _ hkv)) h]
      exact alGet_alSet_ne _ _ _ _ hk0
    · rw [ih _ _ _ (fun kv hkv => hne kv (List.mem_cons_of_mem _ hkv)) h]
      exact alGet_alSet_ne _ _ _ _ hk0

theorem reformMoodGo_frozen (l : Dict) : ∀ acc out key,
    (∀ kv ∈ l, ¬ kv.1 = key) → reformMoodGo acc l = .ok out →
    alGet out key = alGet acc key := by
  induction l with
  | nil =>
    intro acc out key _ h
    rw [reformMoodGo] at h
    rw [← Except.ok.inj h]
  | cons kv0 rest ih =>
    intro acc out key hne h
    rcases kv0 with ⟨k0, v0⟩
    have hk0 : ¬ k0 = key := hne _ (List.mem_cons_self _ _)
    rw [reformMoodGo] at h
    rcases bind_eq_ok h with ⟨td, _, h⟩
    rcases bind_eq_ok h with ⟨td', _, h⟩
    rw [ih _ _ _ (fun kv hkv => hne kv (List.mem_cons_of_mem _ hkv)) h]
    exact alGet_alSet_ne _ _ _ _ hk0

theorem reformVoiceGo_frozen (l : Dict) : ∀ acc out key,
    (∀ kv ∈ l, ¬ kv.1 = key) → reformVoiceGo acc l = .ok out →
    alGet out key = alGet acc key := by
  induction l with
  | nil =>
    intro acc out key _ h
    rw [reformVoiceGo] at h
    rw [← Except.ok.inj h]
  | cons kv0 rest ih =>
    intro acc out key hne h
    rcases kv0 with ⟨k0, v0⟩
    have hk0 : ¬ k0 = key := hne _ (List.mem_cons_self _ _)
    rw [reformVoiceGo] at h
    split at h
    · rw [ih _ _ _ (fun kv hkv => hne kv (List.mem_cons_of_mem _ hkv)) h]
      exact alGet_alSet_ne _ _ _ _ hk0
    · rcases bind_eq_ok h with ⟨md, _, h⟩
      rcases bind_eq_ok h with ⟨md', _, h⟩
      rw [ih _ _ _ (fun kv hkv => hne kv (List.mem_cons_of_mem _ hkv)) h]
      exact alGet_alSet_ne _ _ _ _ hk0

theorem reformTenseGo_get (l : Dict) : ∀ acc out key s,
    (l.map Prod.fst).Nodup → alGet l key = some (PyVal.vstr s) →
    containsChar ';' s = true → reformTenseGo acc l = .ok out →
    alGet out key = some (PyVal.vstr (joinWith [';'] (splitOnChar ';' s).reverse)) := by
  induction l with
  | nil =>
    intro acc out key s _ hget _ _
    simp [alGet] at hget
  | cons kv0 rest ih =>
    intro acc out key s hnodup hget hsemi h
    rcases kv0 with ⟨k0, v0⟩
    rw [alGet] at hget
    simp only [List.map_cons, List.nodup_cons] at hnodup
    rw [reformTenseGo] at h
    rcases bind_eq_ok h with ⟨hasSemi, hin, h⟩
    by_cases hk0 : k0 = key
    · rw [if_pos hk0] at hget
      injection hget with hget
      subst hget
      subst hk0
      have hin' : (Except.ok (isSubstr (S ";") s) : Except Unit Bool) =
          Except.ok hasSemi := hin
      have hsemi' : hasSemi = true := by
        rw [← Except.ok.inj hin']
        have hS : S ";" = [';'] := rfl
        rw [hS, isSubstr_singleton]
        exact hsemi
      subst hsemi'
      rw [if_pos rfl] at h
      rcases bind_eq_ok h with ⟨s', hs', h⟩
      have hss : s = s' := Except.ok.inj hs'
      subst hss
      have hfroz := reformTenseGo_frozen rest _ out k0
        (fun kv hkv hcon => hnodup.1 (hcon ▸ List.mem_map.mpr ⟨kv, hkv, rfl⟩)) h
      rw [hfroz, alGet_alSet_self]
    · rw [if_neg hk0] at hget
      split at h
      · rcases bind_eq_ok h with ⟨s', _, h⟩
        exact ih _ _ _ _ hnodup.2 hget hsemi h
      · exact ih _ _ _ _ hnodup.2 hget hsemi h

theorem reformMoodGo_get (l : Dict) : ∀ acc out key td,
    (l.map Prod.fst).Nodup → alGet l key = some (PyVal.vdict td) →
    reformMoodGo acc l = .ok out →
    ∃ td', reformTense td = .ok td' ∧ alGet out key = some (PyVal.vdict td') := by
  induction l with
  | nil =>
    intro acc out key td _ hget _
    simp [alGet] at hget
  | cons kv0 rest ih =>
    intro acc out key td hnodup hget h
    rcases kv0 with ⟨k0, v0⟩
    rw [alGet] at hget
    simp only [List.map_cons, List.nodup_cons] at hnodup
    by_cases hk0 : k0 = key
    · rw [if_pos hk0] at hget
      injection hget with hget
      subst hget
      subst hk0
      replace h : (reformTense td >>= fun td' =>
          reformMoodGo (alSet acc k0 (PyVal.vdict td')) rest) = Except.ok out := h
      cases htt : reformTense td with
      | error e =>
        cases e
        rw [htt] at h
        simp only [error_bind] at h
        exact absurd h (by simp)
      | ok td' =>
        rw [htt] at h
        simp only [ok_bind] at h
        refine ⟨td', rfl, ?_⟩
        have hfroz := reformMoodGo_frozen rest _ out k0
          (fun kv hkv hcon => hnodup.1 (hcon ▸ List.mem_map.mpr ⟨kv, hkv, rfl⟩)) h
        rw [hfroz, alGet_alSet_self]
    · rw [if_neg hk0] at hget
      rw [reformMoodGo] at h
      cases ha : asDict v0 with
      | error e =>
        cases e
        rw [ha] at h
        simp only [error_bind] at h
        exact absurd h (by simp)
      | ok td0 =>
        rw [ha] at h
        simp only [ok_bind] at h
        cases htt : reformTense td0 with
        | error e =>
          cases e
          rw [htt] at h
          simp only [error_bind] at h
          exact absurd h (by simp)
        | ok td' =>
          rw [htt] at h
          simp only [ok_bind] at h
          exact ih _ _ _ _ hnodup.2 hget h

theorem reformVoiceGo_get (l : Dict) : ∀ acc out key md,
    (l.map Prod.fst).Nodup → alGet l key = some (PyVal.vdict md) →
    ¬ key = S "participe" → reformVoiceGo acc l = .ok out →
    ∃ md', reformMood md = .ok md' ∧ alGet out key = some (PyVal.vdict md') := by
  induction l with
  | nil =>
    intro acc out key md _ hget _ _
    simp [alGet] at hget
  | cons kv0 rest ih =>
    intro acc out key md hnodup hget hpart h
    rcases kv0 with ⟨k0, v0⟩
    rw [alGet] at hget
    simp only [List.map_cons, List.nodup_cons] at hnodup
    rw [reformVoiceGo] at h
    by_cases hk0 : k0 = key
    · rw [if_pos hk0] at hget
      injection hget with hget
      subst hget
      subst hk0
      rw [if_neg hpart] at h
      replace h : (reformMood md >>= fun md' =>
          reformVoiceGo (alSet acc k0 (PyVal.vdict md')) rest) = Except.ok out := h
      cases hmm : reformMood md with
      | error e =>
        cases e
        rw [hmm] at h
        simp only [error_bind] at h
        exact absurd h (by simp)
      | ok md' =>
        rw [hmm] at h
        simp only [ok_bind] at h
        refine ⟨md', rfl, ?_⟩
        have hfroz := reformVoiceGo_frozen rest _ out k0
          (fun kv hkv hcon => hnodup.1 (hcon ▸ List.mem_map.mpr ⟨kv, hkv, rfl⟩)) h
        rw [hfroz, alGet_alSet_self]
    · rw [if_neg hk0] at hget
      split at h
      · exact ih _ _ _ _ hnodup.2 hget hpart h
      · cases ha : asDict v0 with
        | error e =>
          cases e
          rw [ha] at h
          simp only [error_bind] at h
          exact absurd h (by simp)
        | ok md0 =>
          rw [ha] at h
          simp only [ok_bind] at h
          cases hmm : reformMood md0 with
          | error e =>
            cases e
            rw [hmm] at h
            simp only [error_bind] at h
            exact absurd h (by simp)
          | ok md' =>
            rw [hmm] at h
            simp only [ok_bind] at h
            exact ih _ _ _ _ hnodup.2 hget hpart h

theorem reformRecordGo_get_voice (l : Dict) : ∀ acc out key vd,
    (l.map Prod.fst).Nodup → alGet l key = some (PyVal.vdict vd) →
    key ∉ metadataKeys → reformRecordGo acc l = .ok out →
    ∃ vd', reformVoice vd = .ok vd' ∧ alGet out key = some (PyVal.vdict vd') := by
  induction l with
  | nil =>
    intro acc out key vd _ hget _ _
    simp [alGet] at hget
  | cons kv0 rest ih =>
    intro acc out key vd hnodup hget hmeta h
    rcases kv0 with ⟨k0, v0⟩
    rw [alGet] at hget
    simp only [List.map_cons, List.nodup_cons] at hnodup
    rw [reformRecordGo] at h
    by_cases hk0 : k0 = key
    · rw [if_pos hk0] at hget
      injection hget with hget
      subst hget
      subst hk0
      rw [if_neg hmeta] at h
      replace h : (reformVoice vd >>= fun vd' =>
          reformRecordGo (alSet acc k0 (PyVal.vdict vd')) rest) = Except.ok out := h
      cases hvv : reformVoice vd with
      | error e =>
        cases e
        rw [hvv] at h
        simp only [error_bind] at h
        exact absurd h (by simp)
      | ok vd' =>
        rw [hvv] at h
        simp only [ok_bind] at h
        refine ⟨vd', rfl, ?_⟩
        have hfroz := reformRecordGo_frozen rest _ out k0
          (fun kv hkv hcon => hnodup.1 (hcon ▸ List.mem_map.mpr ⟨kv, hkv, rfl⟩)) h
        rw [hfroz, alGet_alSet_self]
    · rw [if_neg hk0] at hget
      split at h
      · exact ih _ _ _ _ hnodup.2 hget hmeta h
      · cases ha : asDict v0 with
        | error e =>
          cases e
          rw [ha] at h
          simp only [error_bind] at h
          exact absurd h (by simp)
        | ok vd0 =>
          rw [ha] at h
          simp only [ok_bind] at h
          cases hvv : reformVoice vd0 with
          | error e =>
            cases e
            rw [hvv] at h
            simp only [error_bind] at h
            exact absurd h (by simp)
          | ok vd' =>
            rw [hvv] at h
            simp only [ok_bind] at h
            exact ih _ _ _ _ hnodup.2 hget hmeta h

/-- C5: for every person-form field of the original normalized record that
holds a semicolon-delimited 2-variant list `A;B`, the same field of the
reform-variant record produced by `create_reformed_verb_entry` holds `B;A`. -/
theorem variant_order_inversion
    (v : Str) (d : Dict) (n : Str) (rd : Dict)
    (voiceKey moodKey tenseKey personKey : Str) (vd md td : Dict) (A B : Str)
    (hnd : (d.map Prod.fst).Nodup) (hndv : (vd.map Prod.fst).Nodup)
    (hndm : (md.map Prod.fst).Nodup) (hndt : (td.map Prod.fst).Nodup)
    (hmeta : voiceKey ∉ metadataKeys) (hmood : ¬ moodKey = S "participe")
    (hvd : alGet d voiceKey = some (PyVal.vdict vd))
    (hmd : alGet vd moodKey = some (PyVal.vdict md))
    (htd : alGet md tenseKey = some (PyVal.vdict td))
    (hps : alGet td personKey = some (PyVal.vstr (A ++ ';' :: B)))
    (hA : containsChar ';' A = false) (hB : containsChar ';' B = false)
    (h : create_reformed_verb_entry v d = .ok (some (n, rd))) :
    ∃ vd' md' td', alGet rd voiceKey = some (PyVal.vdict vd') ∧
      alGet vd' moodKey = some (PyVal.vdict md') ∧
      alGet md' tenseKey = some (PyVal.vdict td') ∧
      alGet td' personKey = some (PyVal.vstr (B ++ ';' :: A)) := by
  obtain ⟨hv, hn, hgo⟩ := create_reformed_cases h
  have hrect : ¬ (S "rectification_1990") = voiceKey := by
    intro hc
    exact hmeta (hc ▸ (by decide : (S "rectification_1990") ∈ metadataKeys))
  have hvar : ¬ (S "rectification_1990_variante") = voiceKey := by
    intro hc
    exact hmeta (hc ▸ (by decide : (S "rectification_1990_variante") ∈ metadataKeys))
  have hd1get : alGet (alSet (alSet d (S "rectification_1990") (PyVal.vbool true))
      (S "rectification_1990_variante") (PyVal.vstr v)) voiceKey =
      some (PyVal.vdict vd) := by
    rw [alGet_alSet_ne _ _ _ _ hvar, alGet_alSet_ne _ _ _ _ hrect]
    exact hvd
  have hd1nd := alSet_keys_nodup
    (alSet_keys_nodup hnd (S "rectification_1990") (PyVal.vbool true))
    (S "rectification_1990_variante") (PyVal.vstr v)
  obtain ⟨vd', hvv, hrdget⟩ :=
    reformRecordGo_get_voice _ [] rd voiceKey vd hd1nd hd1get hmeta hgo
  rw [reformVoice] at hvv
  obtain ⟨md', hmm, hvdget⟩ := reformVoiceGo_get vd [] vd' moodKey md hndv hmd hmood hvv
  rw [reformMood] at hmm
  obtain ⟨td', htt, hmdget⟩ := reformMoodGo_get md [] md' tenseKey td hndm htd hmm
  rw [reformTense] at htt
  have hsemi : containsChar ';' (A ++ ';' :: B) = true := containsChar_append_cons ';' A B
  have hfinal := reformTenseGo_get td [] td' personKey (A ++ ';' :: B) hndt hps hsemi htt
  refine ⟨vd', md', td', hrdget, hvdget, hmdget, ?_⟩
  rw [hfinal, splitOnChar_append B hA, splitOnChar_of_not_contains hB]
  rw [show ([A, B] : List Str).reverse = [B, A] from rfl, joinWith_pair,
    List.append_assoc]
  rfl

/-- Witness for C5 at the verb `connaître` with the 2-variant form `a;b`. -/
theorem variant_order_inversion_witness :
    ∃ vd' md' td',
      alGet [(S "voix_active_avoir", PyVal.vdict [(S "indicatif", PyVal.vdict
            [(S "present", PyVal.vdict [(S "1s", PyVal.vstr (S "b;a"))])])]),
          (S "rectification_1990", PyVal.vbool true),
          (S "rectification_1990_variante", PyVal.vstr (S "connaître"))]
        (S "voix_active_avoir") = some (PyVal.vdict vd') ∧
      alGet vd' (S "indicatif") = some (PyVal.vdict md') ∧
      alGet md' (S "present") = some (PyVal.vdict td') ∧
      alGet td' (S "1s") = some (PyVal.vstr (S "b" ++ ';' :: S "a")) :=
  variant_order_inversion (S "connaître")
    [(S "voix_active_avoir", PyVal.vdict [(S "indicatif", PyVal.vdict
        [(S "present", PyVal.vdict [(S "1s", PyVal.vstr (S "a;b"))])])])]
    (S "connaitre")
    [(S "voix_active_avoir", PyVal.vdict [(S "indicatif", PyVal.vdict
        [(S "present", PyVal.vdict [(S "1s", PyVal.vstr (S "b;a"))])])]),
      (S "rectification_1990", PyVal.vbool true),
      (S "rectification_1990_variante", PyVal.vstr (S "connaître"))]
    (S "voix_active_avoir") (S "indicatif") (S "present") (S "1s")
    [(S "indicatif", PyVal.vdict [(S "present", PyVal.vdict
        [(S "1s", PyVal.vstr (S "a;b"))])])]
    [(S "present", PyVal.vdict [(S "1s", PyVal.vstr (S "a;b"))])]
    [(S "1s", PyVal.vstr (S "a;b"))]
    (S "a") (S "b")
    (by decide) (by decide) (by decide) (by decide) (by decide) (by decide)
    rfl rfl rfl rfl (by decide) (by decide) rfl

end VerbConj
